import Mathlib

/-!
# Verification of the `lignin-html` renderer (`src/lib.rs`)

A shallow embedding of the HTML fragment/document renderer.  Rust `&str`
values are modelled as `List Char` (`Str`); byte-level operations of the
source (`str::len`, byte indexing, byte-range slicing) are modelled through
an explicit UTF-8 encoding.  Rendering into the `fmt::Write` sink is
modelled by value: each rendering function returns the list of characters
written so far together with the final status (success, structured error,
or panic).  Rust panics (`todo!`, `unreachable!`, out-of-bounds or
non-char-boundary slicing) are modelled by a distinguished `panic` outcome.
-/

/-- Model of Rust `&str`: a sequence of Unicode scalar values. -/
abbrev Str := List Char

/-- Number of bytes of the UTF-8 encoding of one scalar value. -/
def utf8Width (c : Char) : Nat :=
  if c.toNat < 0x80 then 1
  else if c.toNat < 0x800 then 2
  else if c.toNat < 0x10000 then 3
  else 4

/-- The UTF-8 encoding of one scalar value, as byte values. -/
def utf8EncodeChar (c : Char) : List Nat :=
  let n := c.toNat
  if n < 0x80 then [n]
  else if n < 0x800 then [0xC0 + n / 0x40, 0x80 + n % 0x40]
  else if n < 0x10000 then [0xE0 + n / 0x1000, 0x80 + (n / 0x40) % 0x40, 0x80 + n % 0x40]
  else [0xF0 + n / 0x40000, 0x80 + (n / 0x1000) % 0x40, 0x80 + (n / 0x40) % 0x40, 0x80 + n % 0x40]

/-- The UTF-8 encoding of a string (Rust `str::as_bytes`). -/
def utf8Encode (s : Str) : List Nat :=
  (s.map utf8EncodeChar).flatten

/-- Rust `str::len`: length in bytes. -/
def utf8Len (s : Str) : Nat :=
  (utf8Encode s).length

/-- Rust `<[u8]>::get`: the byte at a byte index of a string. -/
def byteAt (s : Str) (i : Nat) : Option Nat :=
  (utf8Encode s)[i]?

/-- Drop `i` bytes from the front of a string; `none` when `i` is not a
character boundary (or past the end), in which case Rust slicing panics. -/
def dropBytes : Str → Nat → Option Str
  | s, 0 => some s
  | [], _ + 1 => none
  | c :: r, i + 1 =>
    if i + 1 < utf8Width c then none else dropBytes r (i + 1 - utf8Width c)

/-- Take the first `i` bytes of a string as characters; `none` when `i` is
not a character boundary of it (Rust slicing panics). -/
def takeBytes : Str → Nat → Option Str
  | _, 0 => some []
  | [], _ + 1 => none
  | c :: r, i + 1 =>
    if i + 1 < utf8Width c then none
    else (takeBytes r (i + 1 - utf8Width c)).map (c :: ·)

/-- Rust `&text[a..b]` for byte indices `a ≤ b`: `none` models the
boundary/bounds panic. -/
def byteSlice (s : Str) (a b : Nat) : Option Str :=
  (dropBytes s a).bind (takeBytes · (b - a))

/-- ASCII lower-casing of a scalar value (`u8::to_ascii_lowercase` lifted). -/
def asciiLower (c : Char) : Char :=
  if 'A' ≤ c ∧ c ≤ 'Z' then Char.ofNat (c.toNat + 32) else c

/-- Model of `str::eq_ignore_ascii_case`.  On well-formed UTF-8 the
byte-wise ASCII-case-insensitive comparison of the source coincides with
the character-wise one: ASCII folding never touches bytes ≥ 0x80, and the
encoding is injective. -/
def eqIgnoreAsciiCase (a b : Str) : Bool :=
  a.length = b.length && (a.zip b).all fun p => asciiLower p.1 = asciiLower p.2

/-- Boolean prefix test on character lists. -/
def isPref : List Char → List Char → Bool
  | [], _ => true
  | _ :: _, [] => false
  | a :: as, b :: bs => a == b && isPref as bs

/-- Boolean substring-occurrence test: does `pat` occur contiguously in `s`? -/
def occB (pat : List Char) : List Char → Bool
  | [] => isPref pat []
  | b :: t => isPref pat (b :: t) || occB pat t

/-! ## Comment rewriting (`Node::Comment` arm of `render_fragment`)

The source tokenizes the comment body with maximal munch over the literal
tokens `<!--`, `-->`, `--!>` and single characters, replacing the three
forbidden sequences by `<!==`, `==>`, `==!>`. -/

/-- The comment-body token rewriting loop (`CommentToken` lexer plus the
replacement `match`).  The guards mirror maximal munch: at each position
the longest of `<!--`, `--!>`, `-->` matches first, otherwise one
character is copied verbatim. -/
def cb (l : List Char) : List Char :=
  match l with
  | [] => []
  | c :: rest =>
    if c = '<' ∧ rest.take 3 = ['!', '-', '-'] then
      '<' :: '!' :: '=' :: '=' :: cb (rest.drop 3)
    else if c = '-' ∧ rest.take 3 = ['-', '!', '>'] then
      '=' :: '=' :: '!' :: '>' :: cb (rest.drop 3)
    else if c = '-' ∧ rest.take 2 = ['-', '>'] then
      '=' :: '=' :: '>' :: cb (rest.drop 2)
    else c :: cb rest
termination_by l.length
decreasing_by
  all_goals (simp [List.length_drop]; try omega)

/-- `comment.starts_with('>') || comment.starts_with("->")`. -/
def commentPipeOpen (B : Str) : Bool :=
  B.head? = some '>' || B.take 2 = ['-', '>']

/-- `comment.ends_with("<!-")`. -/
def commentPipeClose (B : Str) : Bool :=
  B.reverse.take 3 = ['-', '!', '<']

/-- The full `Node::Comment` emission: `<!--`, a `|` guard if the body
starts with `>` or `->`, the rewritten body, a `|` guard if the body ends
with `<!-`, then `-->`. -/
def renderComment (B : Str) : Str :=
  "<!--".data
    ++ (if commentPipeOpen B then ['|'] else [])
    ++ cb B
    ++ (if commentPipeClose B then ['|'] else [])
    ++ "-->".data

/-! ## Text escaping (`Node::Text` arm, `PlainTextToken` lexer)

`<` becomes `&lt;`, `&` becomes `&amp;`, runs of other characters are
emitted verbatim; emitting a run character-by-character produces the same
character sequence. -/

/-- Emission of one plain-text character. -/
def escapeTextChar (c : Char) : Str :=
  if c = '<' then "&lt;".data
  else if c = '&' then "&amp;".data
  else [c]

/-- The `Node::Text` body emission. -/
def escapeText (t : Str) : Str :=
  (t.map escapeTextChar).flatten

/-! ## Escapable raw text (`render_escapable_raw_text`, `EscapableRawTextToken`)

`</` becomes `&lt;/`, a lone `<` stays, `&` becomes `&amp;`. -/

/-- The escapable-raw-text body emission.  As in the lexer, `</` is
preferred over `<` by maximal munch. -/
def escEscapableRawText : Str → Str
  | [] => []
  | '<' :: '/' :: r => "&lt;/".data ++ escEscapableRawText r
  | '<' :: r => '<' :: escEscapableRawText r
  | '&' :: r => "&amp;".data ++ escEscapableRawText r
  | c :: r => c :: escEscapableRawText r

/-! ## Attribute value quoting (`AttributeValueMode`) -/

/-- The four value-emission modes of the source. -/
inductive AttributeValueMode where
  | Empty
  | Unquoted
  | SingleQuoted
  | DoubleQuoted
deriving DecidableEq, Repr

/-- Characters that clear `unquoted`-legality without touching the quoted
flags (the ASCII-whitespace/`=`/`<`/`>`/backtick arm of the source). -/
def unquotedOnlyBad (c : Char) : Prop :=
  c = '\t' ∨ c = '\n' ∨ c = '\x0C' ∨ c = '\r' ∨ c = ' ' ∨ c = '=' ∨ c = '<' ∨ c = '>' ∨ c = '`'

instance (c : Char) : Decidable (unquotedOnlyBad c) := by
  unfold unquotedOnlyBad; infer_instance

/-- One step of the flag scan of `AttributeValueMode::detect`; the state is
`(unquoted, double_quoted, single_quoted)`. -/
def attrFlagStep (f : Bool × Bool × Bool) (c : Char) : Bool × Bool × Bool :=
  if unquotedOnlyBad c then (false, f.2.1, f.2.2)
  else if c = '"' then (false, false, f.2.2)
  else if c = '\'' then (false, f.2.1, false)
  else f

/-- `AttributeValueMode::detect`. -/
def AttributeValueMode.detect (value : Str) : AttributeValueMode :=
  if value = [] then .Empty
  else
    let f := value.foldl attrFlagStep (true, true, true)
    if f.1 then .Unquoted
    else if f.2.1 then .DoubleQuoted
    else if f.2.2 then .SingleQuoted
    else .DoubleQuoted

/-- Escaping of one attribute-value character inside the per-attribute
emission loop: `&` always becomes `&amp;`; `"` becomes `&quot;` in
double-quoted mode only. -/
def escapeAttrChar (mode : AttributeValueMode) (c : Char) : Str :=
  if c = '&' then "&amp;".data
  else if c = '"' ∧ mode = .DoubleQuoted then "&quot;".data
  else [c]

/-- The attribute value as emitted for a given mode. -/
def escapeAttrValue (mode : AttributeValueMode) (v : Str) : Str :=
  (v.map (escapeAttrChar mode)).flatten

/-! ## Attribute-name validation (`validate_attribute_name`) -/

/-- The forbidden code points of `validate_attribute_name`: C0/C1 controls,
the literal characters, the `U+FDD0..U+FDEF` noncharacters, and code points
whose low 16 bits are `0xFFFE`/`0xFFFF` in planes 0 to 16. -/
def isInvalidAttrChar (c : Char) : Bool :=
  let n := c.toNat
  decide (n ≤ 0x1F ∨ (0x7F ≤ n ∧ n ≤ 0x9F)
    ∨ c = ' ' ∨ c = '"' ∨ c = '\'' ∨ c = '>' ∨ c = '/' ∨ c = '='
    ∨ (0xFDD0 ≤ n ∧ n ≤ 0xFDEF)
    ∨ (n % 0x10000 ≥ 0xFFFE ∧ n / 0x10000 ≤ 0x10))

/-- `validate_attribute_name`: error iff some character is forbidden (the
source returns at the first bad character; the error payload is the whole
name either way). -/
def validAttributeName (name : Str) : Bool :=
  !(name.any isInvalidAttrChar)

/-! ## Element-name classification (`ElementKind`, `ElementKind::detect`)

The source derives a `logos` lexer over the alternation of the fixed names
(ASCII case-insensitive), the run `[0-9A-Za-z]+`, the custom-element
continuation code points, `-`, and an error token.  The variants
`ForeignSelfClosing`, `ForeignNotSelfClosing` and `NormalPre` carry **no**
pattern in the source, so the lexer never produces them.  `logos` picks the
longest match at each position; on equal length the literal name beats the
character-class run. -/

/-- The element kinds of the source, including the pattern-less variants. -/
inductive ElementKind where
  | Void
  | Template
  | RawText
  | EscapableRawTextTextarea
  | EscapableRawText
  | ForeignSelfClosing
  | ForeignNotSelfClosing
  | NormalPre
  | Normal
  | PotentialCustomElementNameCharacter
  | Dash
  | Invalid
deriving DecidableEq, Repr

/-- The fixed element names carrying patterns, with their kinds. -/
def fixedElementNames : List (ElementKind × Str) :=
  [(.Void, "area".data), (.Void, "base".data), (.Void, "br".data), (.Void, "col".data),
   (.Void, "embed".data), (.Void, "hr".data), (.Void, "img".data), (.Void, "input".data),
   (.Void, "link".data), (.Void, "meta".data), (.Void, "param".data), (.Void, "source".data),
   (.Void, "track".data), (.Void, "wbr".data),
   (.Template, "template".data),
   (.RawText, "script".data), (.RawText, "style".data),
   (.EscapableRawTextTextarea, "textarea".data),
   (.EscapableRawText, "title".data)]

/-- ASCII-case-insensitive prefix test (a fixed name matching at the head). -/
def isPrefIC (pat s : Str) : Bool :=
  eqIgnoreAsciiCase pat (s.take pat.length)

/-- ASCII alphanumeric (`[0-9A-Za-z]`). -/
def isAsciiAlnum (c : Char) : Bool :=
  ('0' ≤ c ∧ c ≤ '9') ∨ ('A' ≤ c ∧ c ≤ 'Z') ∨ ('a' ≤ c ∧ c ≤ 'z')

/-- Length of the leading `[0-9A-Za-z]+` run. -/
def alnumRun : Str → Nat
  | [] => 0
  | c :: r => if isAsciiAlnum c then alnumRun r + 1 else 0

/-- One candidate step in the search for the longest matching fixed name. -/
def matchFixedStep (s : Str) (acc : Option (ElementKind × Nat)) (kn : ElementKind × Str) :
    Option (ElementKind × Nat) :=
  if isPrefIC kn.2 s then
    match acc with
    | some (_, l) => if kn.2.length > l then some (kn.1, kn.2.length) else acc
    | none => some (kn.1, kn.2.length)
  else acc

/-- The longest fixed name matching case-insensitively at the head, with
its kind and length. -/
def matchFixed (s : Str) : Option (ElementKind × Nat) :=
  fixedElementNames.foldl (matchFixedStep s) none

/-- A custom-element-name continuation code point
(`PotentialCustomElementNameCharacter` patterns). -/
def isPcencChar (c : Char) : Bool :=
  let n := c.toNat
  decide (c = '.' ∨ c = '_' ∨ n = 0xB7
    ∨ (0xC0 ≤ n ∧ n ≤ 0xD6) ∨ (0xD8 ≤ n ∧ n ≤ 0xF6) ∨ (0xF8 ≤ n ∧ n ≤ 0x37D)
    ∨ (0x37F ≤ n ∧ n ≤ 0x1FFF) ∨ (0x200C ≤ n ∧ n ≤ 0x200D) ∨ (0x203F ≤ n ∧ n ≤ 0x2040)
    ∨ (0x2070 ≤ n ∧ n ≤ 0x218F) ∨ (0x2C00 ≤ n ∧ n ≤ 0x2FEF) ∨ (0x3001 ≤ n ∧ n ≤ 0xD7FF)
    ∨ (0xF900 ≤ n ∧ n ≤ 0xFDCF) ∨ (0xFDF0 ≤ n ∧ n ≤ 0xFFFD) ∨ (0x10000 ≤ n ∧ n ≤ 0xEFFFF))

/-- One lexer step over an element name: the next token and the number of
characters it consumes.  A character matched by no pattern yields the
error token `Invalid` (consuming it). -/
def elemLexNext (s : Str) : Option (ElementKind × Nat) :=
  match s with
  | [] => none
  | c :: _ =>
    let aLen := alnumRun s
    if aLen > 0 then
      match matchFixed s with
      | some (k, fl) => if aLen > fl then some (.Normal, aLen) else some (k, fl)
      | none => some (.Normal, aLen)
    else if isPcencChar c then some (.PotentialCustomElementNameCharacter, 1)
    else if c = '-' then some (.Dash, 1)
    else some (.Invalid, 1)

/-- An invariant of the fixed-name fold: every produced length is the
length of some (nonempty) candidate name, hence positive. -/
theorem matchFixed_fold_pos (s : Str) (l : List (ElementKind × Str))
    (hl : ∀ kn ∈ l, 0 < kn.2.length) :
    ∀ acc : Option (ElementKind × Nat), (∀ k n, acc = some (k, n) → 0 < n) →
      ∀ k n, l.foldl (matchFixedStep s) acc = some (k, n) → 0 < n := by
  induction l with
  | nil => intro acc hacc k n h; exact hacc k n h
  | cons kn rest ih =>
    intro acc hacc k n h
    refine ih (fun x hx => hl x (List.mem_cons_of_mem _ hx)) _ ?_ k n h
    intro k' n' h'
    unfold matchFixedStep at h'
    split at h'
    · match acc, hacc with
      | some (k0, l0), hacc =>
        simp only at h'
        split at h'
        · simp only [Option.some.injEq, Prod.mk.injEq] at h'
          obtain ⟨_, rfl⟩ := h'
          exact hl kn (List.mem_cons_self kn rest)
        · exact hacc _ _ h'
      | none, hacc =>
        simp only [Option.some.injEq, Prod.mk.injEq] at h'
        obtain ⟨_, rfl⟩ := h'
        exact hl kn (List.mem_cons_self kn rest)
    · exact hacc _ _ h'

/-- A successful fixed-name match has positive length. -/
theorem matchFixed_pos {s : Str} {k : ElementKind} {n : Nat}
    (h : matchFixed s = some (k, n)) : 0 < n := by
  refine matchFixed_fold_pos s fixedElementNames ?_ none (by simp) k n h
  intro kn hkn
  fin_cases hkn <;> simp

/-- Every lexer token consumes at least one character. -/
theorem elemLexNext_pos {s : Str} {k : ElementKind} {n : Nat}
    (h : elemLexNext s = some (k, n)) : 0 < n := by
  match s with
  | [] => simp [elemLexNext] at h
  | c :: r =>
    unfold elemLexNext at h
    simp only at h
    split at h
    · rename_i ha
      split at h
      · rename_i k' fl hf
        split at h
        · simp only [Option.some.injEq, Prod.mk.injEq] at h; omega
        · simp only [Option.some.injEq, Prod.mk.injEq] at h
          obtain ⟨rfl, rfl⟩ := h
          exact matchFixed_pos hf
      · simp only [Option.some.injEq, Prod.mk.injEq] at h; omega
    · split at h
      · simp only [Option.some.injEq, Prod.mk.injEq] at h; omega
      · split at h <;> (simp only [Option.some.injEq, Prod.mk.injEq] at h; omega)

/-- The token loop of `ElementKind::detect`: after the first token, every
further token turns `kind` into `Normal`, `Dash` sets `dashed`,
continuation characters set `custom`, and the error token fails. -/
def detectGo (name : Str) (kind : ElementKind) (dashed custom : Bool) (s : Str) :
    Except Str ElementKind :=
  match h : elemLexNext s with
  | none => if custom && !dashed then .error name else .ok kind
  | some (t, n) =>
    match t with
    | .Invalid => .error name
    | .PotentialCustomElementNameCharacter => detectGo name .Normal dashed true (s.drop n)
    | .Dash => detectGo name .Normal true custom (s.drop n)
    | _ => detectGo name .Normal dashed custom (s.drop n)
termination_by s.length
decreasing_by
  all_goals
    (have hn := elemLexNext_pos h
     have hs : s ≠ [] := by rintro rfl; simp [elemLexNext] at h
     have : 0 < s.length := List.length_pos_of_ne_nil hs
     simp [List.length_drop]; omega)

/-- `ElementKind::detect`: the first token may not be `Dash`, a
continuation character, or the error token; then the loop runs. -/
def ElementKind.detect (element_name : Str) : Except Str ElementKind :=
  match elemLexNext element_name with
  | none => .error element_name
  | some (t, n) =>
    match t with
    | .Dash | .PotentialCustomElementNameCharacter | .Invalid => .error element_name
    | k => detectGo element_name k false false (element_name.drop n)

/-! ## Raw text (`render_raw_text`, `RawTextToken`, `check_for_error`)

`check_for_error` receives the byte span `start..end` of a `</` token and
inspects `text[end .. end + element_name.len()]`.  The source guards the
byte *length* (`name_range.end + 1 > text.len()`) but not the character
*boundary*, so the slice `&text[name_range]` can panic inside a multi-byte
character; the model returns `panic` there. -/

/-- Outcome of `check_for_error`: pass, fail with a byte range, or a Rust
panic from slicing at a non-boundary. -/
inductive CheckRes where
  | pass
  | fail (a b : Nat)
  | panicked
deriving DecidableEq, Repr

/-- `check_for_error` for the `</` token ending at byte `endPos` of
`text`. -/
def checkForError (ename text : Str) (endPos : Nat) : CheckRes :=
  let nameEnd := endPos + utf8Len ename
  if nameEnd + 1 > utf8Len text then .pass
  else
    match byteSlice text endPos nameEnd with
    | none => .panicked
    | some sub =>
      if eqIgnoreAsciiCase sub ename then
        match byteAt text nameEnd with
        | some b =>
          if b = 9 ∨ b = 10 ∨ b = 12 ∨ b = 13 ∨ b = 32 ∨ b = 62 ∨ b = 47 then
            .fail (endPos - 2) (nameEnd + 1)
          else .pass
        | none => .panicked
      else .pass

/-! ## The virtual-DOM tree (input data model)

The `lignin` node variants, with the fields the renderer ignores
(`dom_binding`, `state_key`, `event_bindings`, `creation_options`, the
thread-safety marker, and the payload of `RemnantSite`) omitted.  A
`Keyed` entry is a `ReorderableFragment`: a `dom_key` (here a `Nat`
standing in for `u32`, never read by the renderer) and a content node. -/
inductive Node where
  | comment (body : Str)
  | htmlElement (name : Str) (attributes : List (Str × Str)) (content : Node)
  | svgElement (name : Str) (attributes : List (Str × Str)) (content : Node)
  | memoized (content : Node)
  | multi (ns : List Node)
  | keyed (ps : List (Nat × Node))
  | text (body : Str)
  | remnantSite
deriving Inhabited, Repr

/-- The error taxonomy of `ErrorKind` (the `FmtError` case is sink
failure, which the value model's infallible sink never produces; note the
source has **no** variant for `RemnantSite`). -/
inductive ErrKind where
  | invalidElementName (name : Str)
  | invalidAttributeName (name : Str)
  | nonEmptyVoidElementContent (content : Node)
  | nonTextDomNodeInRawTextPosition (node : Node)
  | nonTextDomNodeInEscapableRawTextPosition (node : Node)
  | elementClosedInRawText (span : Str)
  | depthLimitExceeded (node : Node)
deriving Inhabited, Repr

/-- Result of a rendering function: the characters written to the sink so
far, plus the final status — success, a structured error, or a Rust
panic (`todo!`, `unreachable!`, slice panics). -/
inductive RRes where
  | ok (out : Str)
  | err (out : Str) (e : ErrKind)
  | panicked (out : Str)
deriving Inhabited, Repr

/-- Prepend already-written output to a result. -/
def RRes.pre (s : Str) : RRes → RRes
  | .ok o => .ok (s ++ o)
  | .err o e => .err (s ++ o) e
  | .panicked o => .panicked (s ++ o)

/-- Sequencing: run `b` only when `a` succeeded, keeping `a`'s output. -/
def RRes.seq (a b : RRes) : RRes :=
  match a with
  | .ok o => RRes.pre o b
  | x => x

/-- The characters written to the sink, regardless of the status. -/
def RRes.outStr : RRes → Str
  | .ok o => o
  | .err o _ => o
  | .panicked o => o

/-- Did rendering succeed? -/
def RRes.isOk : RRes → Bool
  | .ok _ => true
  | _ => false

/-- The scan of a raw-text `Node::Text` body (the `RawTextToken` loop).
`rest` is the unprocessed suffix of `text` and `p` its starting byte
position in `text`; a `</` token spans bytes `p..p+2` and triggers
`check_for_error`. -/
def rawScan (ename text : Str) (rest : Str) (p : Nat) : RRes :=
  match rest with
  | [] => .ok []
  | c :: r =>
    if c = '<' ∧ r.head? = some '/' then
      match checkForError ename text (p + 2) with
      | .panicked => .panicked []
      | .fail a b =>
        match byteSlice text a b with
        | none => .panicked []
        | some span => .err [] (.elementClosedInRawText span)
      | .pass => RRes.pre ['<', '/'] (rawScan ename text (r.drop 1) (p + 2))
    else if c = '<' then RRes.pre ['<'] (rawScan ename text r (p + 1))
    else RRes.pre [c] (rawScan ename text r (p + utf8Width c))
termination_by rest.length
decreasing_by
  all_goals (simp [List.length_drop]; try omega)

/-! ## `dom_empty` (external `lignin` crate) -/

mutual
/-- Modelled from the spec: `Node::dom_empty` lives in the external
`lignin` crate, whose source is not part of this repository.  Per the spec
(§4.8, §8) a Comment/Element/Text node occupies the DOM, wrappers are
empty iff their children are (`Multi([])` is the canonical empty content),
and `RemnantSite` is reserved (conservatively non-empty here; no settled
claim depends on that choice). -/
def domEmpty : Node → Bool
  | .comment _ => false
  | .htmlElement _ _ _ => false
  | .svgElement _ _ _ => false
  | .memoized c => domEmpty c
  | .multi ns => domEmptyList ns
  | .keyed ps => domEmptyKeyed ps
  | .text _ => false
  | .remnantSite => false

/-- `dom_empty` over `Multi` children. -/
def domEmptyList : List Node → Bool
  | [] => true
  | n :: r => domEmpty n && domEmptyList r

/-- `dom_empty` over `Keyed` fragments. -/
def domEmptyKeyed : List (Nat × Node) → Bool
  | [] => true
  | p :: r => domEmpty p.2 && domEmptyKeyed r
end

/-! ## Structural node depth

One `Node` of budget is consumed per node on a recursion path; this is the
"tree-depth" of the spec's §8. -/

mutual
/-- The structural depth of a tree in `Node`s. -/
def nodeDepth : Node → Nat
  | .comment _ => 1
  | .htmlElement _ _ content => 1 + nodeDepth content
  | .svgElement _ _ content => 1 + nodeDepth content
  | .memoized c => 1 + nodeDepth c
  | .multi ns => 1 + nodeDepthList ns
  | .keyed ps => 1 + nodeDepthKeyed ps
  | .text _ => 1
  | .remnantSite => 1

/-- Depth of a list of children. -/
def nodeDepthList : List Node → Nat
  | [] => 0
  | n :: r => max (nodeDepth n) (nodeDepthList r)

/-- Depth of a list of keyed fragments. -/
def nodeDepthKeyed : List (Nat × Node) → Nat
  | [] => 0
  | p :: r => max (nodeDepth p.2) (nodeDepthKeyed r)
end

/-! ## Attribute emission (the per-attribute loop of the element arm) -/

/-- The characters emitted for one (validated) attribute: a SPACE, the
name, then the mode-dependent `=`/quote framing and the escaped value.
Note the source's `DoubleQuoted` opener is `"\""` — *no* `=` — unlike
`Unquoted` (`"="`) and `SingleQuoted` (`"='"`). -/
def attrText (an av : Str) : Str :=
  ' ' :: an ++
    match AttributeValueMode.detect av with
    | .Empty => []
    | .Unquoted => '=' :: escapeAttrValue .Unquoted av
    | .SingleQuoted => '=' :: '\'' :: (escapeAttrValue .SingleQuoted av ++ ['\''])
    | .DoubleQuoted => '"' :: (escapeAttrValue .DoubleQuoted av ++ ['"'])

/-- The attribute loop: validate each name (error carries the name and
aborts before any output for that attribute), then emit it. -/
def renderAttrs : List (Str × Str) → RRes
  | [] => .ok []
  | (an, av) :: rest =>
    if validAttributeName an then RRes.pre (attrText an av) (renderAttrs rest)
    else .err [] (.invalidAttributeName an)

/-! ## The serialization walker -/

mutual
/-- `render_fragment`.  The element arm follows the source order: classify
the name, emit `<NAME`, the attributes, `>` or ` />`, the `\n` for
`EscapableRawTextTextarea`/`NormalPre`, the kind-dispatched content, and
the closing tag; the `unreachable!()` arms are the `panicked` cases.
`Node::RemnantSite` is the source's `todo!()`, i.e. a panic. -/
def renderFragment (vdom : Node) (depth_limit : Nat) : RRes :=
  if depth_limit = 0 then .err [] (.depthLimitExceeded vdom)
  else
    match vdom with
    | .comment B => .ok (renderComment B)
    | .htmlElement name attrs content
    | .svgElement name attrs content =>
      match ElementKind.detect name with
      | .error n => .err [] (.invalidElementName n)
      | .ok kind =>
        RRes.pre ('<' :: name)
          (RRes.seq (renderAttrs attrs)
            (RRes.pre (if kind = .ForeignSelfClosing then " />".data else ['>'])
              (RRes.pre
                (if kind = .EscapableRawTextTextarea ∨ kind = .NormalPre then ['\n'] else [])
                (RRes.seq (renderElementContent kind name content (depth_limit - 1))
                  (match kind with
                   | .Void | .ForeignSelfClosing => .ok []
                   | .PotentialCustomElementNameCharacter | .Dash | .Invalid => .panicked []
                   | _ => .ok ('<' :: '/' :: name ++ ['>']))))))
    | .memoized content => renderFragment content (depth_limit - 1)
    | .multi ns => renderFragmentList ns (depth_limit - 1)
    | .keyed ps => renderFragmentKeyed ps (depth_limit - 1)
    | .text t => .ok (escapeText t)
    | .remnantSite => .panicked []

/-- The kind-dispatched content emission of the element arm (`// Content:`
in the source): Void/ForeignSelfClosing demand `dom_empty` content,
Template/Normal/NormalPre/ForeignNotSelfClosing recurse via
`render_fragment`, RawText via `render_raw_text` with the element name,
the escapable kinds via `render_escapable_raw_text`; the remaining kinds
are the source's `unreachable!()`. -/
def renderElementContent (kind : ElementKind) (name : Str) (content : Node) (d : Nat) : RRes :=
  match kind with
  | .Void | .ForeignSelfClosing =>
    if domEmpty content then .ok [] else .err [] (.nonEmptyVoidElementContent content)
  | .Template | .Normal | .NormalPre | .ForeignNotSelfClosing => renderFragment content d
  | .RawText => renderRawText content name d
  | .EscapableRawText | .EscapableRawTextTextarea => renderEscapableRawText content d
  | _ => .panicked []

/-- The `Node::Multi` loop of `render_fragment`. -/
def renderFragmentList (ns : List Node) (d : Nat) : RRes :=
  match ns with
  | [] => .ok []
  | n :: rest => RRes.seq (renderFragment n d) (renderFragmentList rest d)

/-- The `Node::Keyed` loop of `render_fragment` (only `content` is read). -/
def renderFragmentKeyed (ps : List (Nat × Node)) (d : Nat) : RRes :=
  match ps with
  | [] => .ok []
  | p :: rest => RRes.seq (renderFragment p.2 d) (renderFragmentKeyed rest d)

/-- `render_raw_text`. -/
def renderRawText (vdom : Node) (element_name : Str) (depth_limit : Nat) : RRes :=
  if depth_limit = 0 then .err [] (.depthLimitExceeded vdom)
  else
    match vdom with
    | .comment _ | .htmlElement _ _ _ | .svgElement _ _ _ =>
      .err [] (.nonTextDomNodeInRawTextPosition vdom)
    | .memoized content => renderRawText content element_name (depth_limit - 1)
    | .multi ns => renderRawList ns element_name (depth_limit - 1)
    | .keyed ps => renderRawKeyed ps element_name (depth_limit - 1)
    | .text t => rawScan element_name t t 0
    | .remnantSite => .panicked []

/-- The `Node::Multi` loop of `render_raw_text`. -/
def renderRawList (ns : List Node) (element_name : Str) (d : Nat) : RRes :=
  match ns with
  | [] => .ok []
  | n :: rest => RRes.seq (renderRawText n element_name d) (renderRawList rest element_name d)

/-- The `Node::Keyed` loop of `render_raw_text`. -/
def renderRawKeyed (ps : List (Nat × Node)) (element_name : Str) (d : Nat) : RRes :=
  match ps with
  | [] => .ok []
  | p :: rest =>
    RRes.seq (renderRawText p.2 element_name d) (renderRawKeyed rest element_name d)

/-- `render_escapable_raw_text`. -/
def renderEscapableRawText (vdom : Node) (depth_limit : Nat) : RRes :=
  if depth_limit = 0 then .err [] (.depthLimitExceeded vdom)
  else
    match vdom with
    | .comment _ | .htmlElement _ _ _ | .svgElement _ _ _ =>
      .err [] (.nonTextDomNodeInEscapableRawTextPosition vdom)
    | .memoized content => renderEscapableRawText content (depth_limit - 1)
    | .multi ns => renderEscList ns (depth_limit - 1)
    | .keyed ps => renderEscKeyed ps (depth_limit - 1)
    | .text t => .ok (escEscapableRawText t)
    | .remnantSite => .panicked []

/-- The `Node::Multi` loop of `render_escapable_raw_text`. -/
def renderEscList (ns : List Node) (d : Nat) : RRes :=
  match ns with
  | [] => .ok []
  | n :: rest => RRes.seq (renderEscapableRawText n d) (renderEscList rest d)

/-- The `Node::Keyed` loop of `render_escapable_raw_text`. -/
def renderEscKeyed (ps : List (Nat × Node)) (d : Nat) : RRes :=
  match ps with
  | [] => .ok []
  | p :: rest => RRes.seq (renderEscapableRawText p.2 d) (renderEscKeyed rest d)
end

/-- `render_document`: check the budget, emit the DOCTYPE, delegate. -/
def renderDocument (vdom : Node) (depth_limit : Nat) : RRes :=
  if depth_limit = 0 then .err [] (.depthLimitExceeded vdom)
  else RRes.pre "<!DOCTYPE html>".data (renderFragment vdom depth_limit)

/-! ## Claim theorems -/

/-- C1: the claim says a DoubleQuoted attribute is emitted as
` NAME="VALUE"`.  The source's opener for `DoubleQuoted` is `"\""`, with
no `=` (unlike `Unquoted` and `SingleQuoted`), so the value `a b`
(DoubleQuoted mode) renders as `<div class"a b"></div>` — the `=` is
missing.  This evaluates the renderer at the failing input. -/
theorem attr_double_quoted_emits_no_equals :
    AttributeValueMode.detect "a b".data = .DoubleQuoted
      ∧ renderFragment (.htmlElement "div".data [("class".data, "a b".data)] (.multi [])) 2
          = .ok "<div class\"a b\"></div>".data := by
  constructor
  · simp [AttributeValueMode.detect, attrFlagStep, unquotedOnlyBad]
  · simp [renderFragment, renderElementContent, renderFragmentList, ElementKind.detect,
      elemLexNext, detectGo, alnumRun, matchFixed, fixedElementNames, matchFixedStep, isPrefIC,
      eqIgnoreAsciiCase, asciiLower, isAsciiAlnum, isPcencChar, renderAttrs, attrText,
      validAttributeName, isInvalidAttrChar, AttributeValueMode.detect, attrFlagStep,
      unquotedOnlyBad, escapeAttrValue, escapeAttrChar, RRes.pre, RRes.seq, domEmpty]

/-- C2: the claim says a `RemnantSite` node yields the structured failure
`RemnantSiteNotImplemented`.  The source instead hits `todo!("RemnantSite")`
— a panic escaping through control flow — and its `ErrorKind` has no such
variant at all; the model's `panicked` outcome witnesses this for every
depth budget that reaches the node. -/
theorem remnant_site_panics (d : Nat) :
    renderFragment .remnantSite (d + 1) = .panicked [] := by
  simp [renderFragment]

/-- C3: the claim says `pre` (and `listing`) classify as `NormalPre` and
get a `\n` after the opening tag.  In the source the `NormalPre` variant
carries no lexer pattern, so `ElementKind::detect` classifies `pre` and
`listing` as plain `Normal` and no `\n` is emitted: `<pre></pre>`. -/
theorem pre_classified_normal_no_newline :
    ElementKind.detect "pre".data = .ok .Normal
      ∧ ElementKind.detect "listing".data = .ok .Normal
      ∧ renderFragment (.htmlElement "pre".data [] (.multi [])) 2 = .ok "<pre></pre>".data := by
  refine ⟨?_, ?_, ?_⟩ <;>
    simp [renderFragment, renderElementContent, renderFragmentList, ElementKind.detect,
      elemLexNext, detectGo, alnumRun, matchFixed, fixedElementNames, matchFixedStep, isPrefIC,
      eqIgnoreAsciiCase, asciiLower, isAsciiAlnum, isPcencChar, renderAttrs, RRes.pre, RRes.seq]

/-- C4: the claim says rendering never panics on RemnantSite-free trees
with well-formed UTF-8 strings.  But `check_for_error` guards only the
byte *length* of the candidate end-tag range, not its character
*boundaries*: for the `script` body `"</é€€"` the range `2..8` ends inside
the second `€` (boundaries are 0,1,2,4,7,10), so `&text[name_range]`
panics.  The model evaluates to the `panicked` outcome after `<script>`
was written. -/
theorem raw_text_check_panics_on_multibyte :
    renderFragment (.htmlElement "script".data [] (.text "</é€€".data)) 2
      = .panicked "<script>".data := by
  simp [renderFragment, renderElementContent, renderRawText, ElementKind.detect, elemLexNext,
    detectGo, alnumRun, matchFixed, fixedElementNames, matchFixedStep, isPrefIC,
    eqIgnoreAsciiCase, asciiLower, isAsciiAlnum, isPcencChar, renderAttrs, RRes.pre, RRes.seq,
    rawScan, checkForError, utf8Len, utf8Encode, utf8EncodeChar, utf8Width, byteSlice,
    dropBytes, takeBytes, byteAt]

/-! ## The claim-side end-tag pattern for raw text (C5) -/

/-- The characters the claim allows right after the name:
`\t`, `\n`, `\f`, `\r`, SPACE, `>`, `/`. -/
def isTerminatorChar (c : Char) : Bool :=
  decide (c = '\t' ∨ c = '\n' ∨ c = '\x0C' ∨ c = '\r' ∨ c = ' ' ∨ c = '>' ∨ c = '/')

/-- Claim-side: does `s` begin with `</`, then the element name (ASCII
case-insensitively), then a terminator character? -/
def startsCloseTag (ename s : Str) : Bool :=
  match s with
  | a :: b :: r =>
    a = '<' && b = '/' && eqIgnoreAsciiCase (r.take ename.length) ename &&
      (match r[ename.length]? with
       | some c => isTerminatorChar c
       | none => false)
  | _ => false

/-- Claim-side: does the body contain such an end-tag occurrence? -/
def containsCloseTag (ename : Str) : Str → Bool
  | [] => false
  | c :: r => startsCloseTag ename (c :: r) || containsCloseTag ename r

/-- C5 (counterexample): the claim says rendering a raw-text body fails
with `ElementClosedInRawText` **iff** the body contains
`</name[\t\n\f\r />]`, and otherwise emits it verbatim.  The body
`"</é€€ </script>"` contains `</script>` yet rendering neither fails with
that error nor emits the body: the earlier `</é€€` occurrence panics in
`check_for_error` (non-boundary slice), so the claim as stated is false. -/
theorem raw_text_close_tag_panic_counterexample :
    containsCloseTag "script".data "</é€€ </script>".data = true
      ∧ renderRawText (.text "</é€€ </script>".data) "script".data 1 = .panicked [] := by
  constructor
  · simp [containsCloseTag, startsCloseTag, eqIgnoreAsciiCase, asciiLower, isTerminatorChar]
  · simp [renderRawText, rawScan, checkForError, utf8Len, utf8Encode, utf8EncodeChar, utf8Width,
      byteSlice, dropBytes, takeBytes, byteAt, RRes.pre]

/-- C7: for every tree and positive depth budget, `render_document`
writes exactly `<!DOCTYPE html>` followed by what `render_fragment`
writes, and has the same success status. -/
theorem render_document_is_doctype_then_fragment (T : Node) (d : Nat) (hd : 1 ≤ d) :
    (renderDocument T d).outStr = "<!DOCTYPE html>".data ++ (renderFragment T d).outStr
      ∧ (renderDocument T d).isOk = (renderFragment T d).isOk := by
  have hd0 : d ≠ 0 := by omega
  unfold renderDocument
  cases h : renderFragment T d <;> simp [hd0, h, RRes.pre, RRes.outStr, RRes.isOk]

/-- C7 witness at a concrete input. -/
theorem render_document_is_doctype_then_fragment_witness :
    (renderDocument (.text "hi".data) 1).outStr
        = "<!DOCTYPE html>".data ++ (renderFragment (.text "hi".data) 1).outStr
      ∧ (renderDocument (.text "hi".data) 1).isOk = (renderFragment (.text "hi".data) 1).isOk :=
  render_document_is_doctype_then_fragment (.text "hi".data) 1 (by omega)

/-! ## C9: attribute-value-mode selection -/

/-- Characters legal in an unquoted value, per the claim's list. -/
def unquotedLegalChar (c : Char) : Bool :=
  !(decide (unquotedOnlyBad c ∨ c = '"' ∨ c = '\''))

/-- Written from the claim's words (spec §4.2): Empty iff empty; else
Unquoted iff no `\t \n \f \r SPACE = < > backtick " '`; else DoubleQuoted
iff no `"`; else SingleQuoted iff no `'`; else DoubleQuoted. -/
def specAttributeValueMode (V : Str) : AttributeValueMode :=
  if V = [] then .Empty
  else if V.all unquotedLegalChar then .Unquoted
  else if V.all (fun c => decide (c ≠ '"')) then .DoubleQuoted
  else if V.all (fun c => decide (c ≠ '\'')) then .SingleQuoted
  else .DoubleQuoted

/-- The flag fold of `AttributeValueMode::detect` computes the three
"no bad character" predicates. -/
theorem attrFlagStep_foldl (v : Str) : ∀ u dq sq : Bool,
    v.foldl attrFlagStep (u, dq, sq)
      = (u && v.all unquotedLegalChar,
         dq && v.all (fun c => decide (c ≠ '"')),
         sq && v.all (fun c => decide (c ≠ '\''))) := by
  induction v with
  | nil => intro u dq sq; simp
  | cons c r ih =>
    intro u dq sq
    simp only [List.foldl_cons, List.all_cons]
    by_cases h1 : unquotedOnlyBad c
    · have hq : c ≠ '"' := by
        rcases h1 with h | h | h | h | h | h | h | h | h <;> (subst h; decide)
      have hs : c ≠ '\'' := by
        rcases h1 with h | h | h | h | h | h | h | h | h <;> (subst h; decide)
      rw [show attrFlagStep (u, dq, sq) c = (false, dq, sq) by simp [attrFlagStep, h1]]
      rw [ih]
      simp [unquotedLegalChar, h1, hq, hs]
    · by_cases h2 : c = '"'
      · subst h2
        rw [show attrFlagStep (u, dq, sq) '"' = (false, false, sq) by
          simp [attrFlagStep, h1]]
        rw [ih]
        simp [unquotedLegalChar, h1]
      · by_cases h3 : c = '\''
        · subst h3
          rw [show attrFlagStep (u, dq, sq) '\'' = (false, dq, false) by
            simp [attrFlagStep, h1, h2]]
          rw [ih]
          simp [unquotedLegalChar, h1, h2]
        · rw [show attrFlagStep (u, dq, sq) c = (u, dq, sq) by
            simp [attrFlagStep, h1, h2, h3]]
          rw [ih]
          simp [unquotedLegalChar, h1, h2, h3]

/-- C9: `AttributeValueMode::detect` decides exactly as the claim states:
Empty iff the value is empty, else Unquoted iff no unquoted-illegal
character occurs, else DoubleQuoted iff no `"`, else SingleQuoted iff no
`'`, else DoubleQuoted. -/
theorem attribute_value_mode_detect_spec (V : Str) :
    AttributeValueMode.detect V = specAttributeValueMode V := by
  unfold AttributeValueMode.detect specAttributeValueMode
  by_cases hV : V = []
  · simp [hV]
  · simp only [hV, if_false]
    rw [attrFlagStep_foldl]
    simp

/-! ## C10: the image of `ElementKind::detect` -/

/-- The fixed-name fold only produces kinds and lengths of listed
candidates (generic invariant). -/
theorem matchFixed_fold_prop (P : ElementKind → Nat → Prop) (s : Str)
    (l : List (ElementKind × Str)) (hl : ∀ kn ∈ l, P kn.1 kn.2.length) :
    ∀ acc : Option (ElementKind × Nat), (∀ k n, acc = some (k, n) → P k n) →
      ∀ k n, l.foldl (matchFixedStep s) acc = some (k, n) → P k n := by
  induction l with
  | nil => intro acc hacc k n h; exact hacc k n h
  | cons kn rest ih =>
    intro acc hacc k n h
    refine ih (fun x hx => hl x (List.mem_cons_of_mem _ hx)) _ ?_ k n h
    intro k' n' h'
    unfold matchFixedStep at h'
    split at h'
    · match acc, hacc with
      | some (k0, l0), hacc =>
        simp only at h'
        split at h'
        · simp only [Option.some.injEq, Prod.mk.injEq] at h'
          obtain ⟨rfl, rfl⟩ := h'
          exact hl kn (List.mem_cons_self kn rest)
        · exact hacc _ _ h'
      | none, hacc =>
        simp only [Option.some.injEq, Prod.mk.injEq] at h'
        obtain ⟨rfl, rfl⟩ := h'
        exact hl kn (List.mem_cons_self kn rest)
    · exact hacc _ _ h'

/-- A fixed-name match only yields the five fixed kinds. -/
theorem matchFixed_kind {s : Str} {k : ElementKind} {n : Nat}
    (h : matchFixed s = some (k, n)) :
    k = .Void ∨ k = .Template ∨ k = .RawText ∨ k = .EscapableRawTextTextarea
      ∨ k = .EscapableRawText := by
  refine matchFixed_fold_prop
    (fun k _ => k = .Void ∨ k = .Template ∨ k = .RawText ∨ k = .EscapableRawTextTextarea
      ∨ k = .EscapableRawText) s fixedElementNames ?_ none (by simp) k n h
  intro kn hkn
  fin_cases hkn <;> simp

/-- The lexer never produces the pattern-less variants
`ForeignSelfClosing`, `ForeignNotSelfClosing`, `NormalPre`. -/
theorem elemLexNext_kind {s : Str} {t : ElementKind} {n : Nat}
    (h : elemLexNext s = some (t, n)) :
    t ≠ .ForeignSelfClosing ∧ t ≠ .ForeignNotSelfClosing ∧ t ≠ .NormalPre := by
  match s with
  | [] => simp [elemLexNext] at h
  | c :: r =>
    unfold elemLexNext at h
    simp only at h
    split at h
    · split at h
      · rename_i k' fl hf
        split at h
        · simp only [Option.some.injEq, Prod.mk.injEq] at h
          obtain ⟨rfl, rfl⟩ := h
          refine ⟨by simp, by simp, by simp⟩
        · simp only [Option.some.injEq, Prod.mk.injEq] at h
          obtain ⟨rfl, rfl⟩ := h
          rcases matchFixed_kind hf with h | h | h | h | h <;> subst h <;>
            exact ⟨by simp, by simp, by simp⟩
      · simp only [Option.some.injEq, Prod.mk.injEq] at h
        obtain ⟨rfl, rfl⟩ := h
        exact ⟨by simp, by simp, by simp⟩
    · split at h
      · simp only [Option.some.injEq, Prod.mk.injEq] at h
        obtain ⟨rfl, rfl⟩ := h
        exact ⟨by simp, by simp, by simp⟩
      · split at h <;>
          (simp only [Option.some.injEq, Prod.mk.injEq] at h
           obtain ⟨rfl, rfl⟩ := h
           exact ⟨by simp, by simp, by simp⟩)

/-- A successful run of the token loop returns the first token's kind or
`Normal`. -/
theorem detectGo_ok_image (m : Nat) :
    ∀ (name : Str) (kind : ElementKind) (dashed custom : Bool) (s : Str), s.length ≤ m →
      ∀ k, detectGo name kind dashed custom s = .ok k → k = kind ∨ k = .Normal := by
  induction m with
  | zero =>
    intro name kind dashed custom s hs k h
    have hnil : s = [] := by
      cases s with
      | nil => rfl
      | cons a b => simp at hs
    subst hnil
    unfold detectGo at h
    split at h
    · split at h
      · cases h
      · simp only [Except.ok.injEq] at h
        exact Or.inl h.symm
    · rename_i t n2 heq
      simp [elemLexNext] at heq
  | succ m ih =>
    intro name kind dashed custom s hs k h
    unfold detectGo at h
    split at h
    · split at h
      · cases h
      · simp only [Except.ok.injEq] at h
        exact Or.inl h.symm
    · rename_i t n2 heq
      have hn2 : 0 < n2 := elemLexNext_pos heq
      have hsne : s ≠ [] := by
        rintro rfl
        simp [elemLexNext] at heq
      have hlen : (s.drop n2).length ≤ m := by
        have : 0 < s.length := List.length_pos_of_ne_nil hsne
        simp only [List.length_drop]
        omega
      split at h
      · cases h
      · exact Or.inr ((ih name .Normal dashed true _ hlen k h).elim id id)
      · exact Or.inr ((ih name .Normal true custom _ hlen k h).elim id id)
      · exact Or.inr ((ih name .Normal dashed custom _ hlen k h).elim id id)

/-- C10: a successful `ElementKind::detect` only returns `Void`,
`Template`, `RawText`, `EscapableRawTextTextarea`, `EscapableRawText` or
`Normal` — never `ForeignSelfClosing`, `ForeignNotSelfClosing`,
`NormalPre`, `PotentialCustomElementNameCharacter`, `Dash` or `Invalid` —
so the walker's `unreachable!()` dispatch arms are sound and the
` />` opening-tag form is never emitted. -/
theorem element_kind_detect_image (name : Str) (k : ElementKind)
    (h : ElementKind.detect name = .ok k) :
    k = .Void ∨ k = .Template ∨ k = .RawText ∨ k = .EscapableRawTextTextarea
      ∨ k = .EscapableRawText ∨ k = .Normal := by
  unfold ElementKind.detect at h
  split at h
  · cases h
  · rename_i t n heq
    split at h
    · cases h
    · cases h
    · cases h
    · rename_i hne1 hne2 hne3
      have himg := detectGo_ok_image (name.drop n).length name t false false (name.drop n)
        le_rfl k h
      have hkinds := elemLexNext_kind heq
      cases t with
      | Void => exact himg.elim (fun hh => Or.inl hh) (fun hh => by simp [hh])
      | Template => exact himg.elim (fun hh => by simp [hh]) (fun hh => by simp [hh])
      | RawText => exact himg.elim (fun hh => by simp [hh]) (fun hh => by simp [hh])
      | EscapableRawTextTextarea => exact himg.elim (fun hh => by simp [hh]) (fun hh => by simp [hh])
      | EscapableRawText => exact himg.elim (fun hh => by simp [hh]) (fun hh => by simp [hh])
      | Normal => exact himg.elim (fun hh => by simp [hh]) (fun hh => by simp [hh])
      | ForeignSelfClosing => exact absurd rfl hkinds.1
      | ForeignNotSelfClosing => exact absurd rfl hkinds.2.1
      | NormalPre => exact absurd rfl hkinds.2.2
      | PotentialCustomElementNameCharacter => exact (hne2 rfl).elim
      | Dash => exact (hne1 rfl).elim
      | Invalid => exact (hne3 rfl).elim

/-- C10 witness: applying the image theorem at the concrete name `div`. -/
theorem element_kind_detect_image_witness :
    ElementKind.Normal = .Void ∨ ElementKind.Normal = .Template ∨ ElementKind.Normal = .RawText
      ∨ ElementKind.Normal = .EscapableRawTextTextarea
      ∨ ElementKind.Normal = .EscapableRawText ∨ ElementKind.Normal = .Normal :=
  element_kind_detect_image "div".data .Normal (by
    simp [ElementKind.detect, elemLexNext, detectGo, alnumRun, matchFixed, fixedElementNames,
      matchFixedStep, isPrefIC, eqIgnoreAsciiCase, asciiLower, isAsciiAlnum, isPcencChar])

/-! ## C6: safety of the rewritten comment interior -/

/-- A nonempty pipe-free pattern is a prefix of `Y ++ ['|']` iff it is a
prefix of `Y`. -/
theorem isPref_snoc_pipe (p : List Char) (hne : p ≠ []) (hp : '|' ∉ p) :
    ∀ Y, isPref p (Y ++ ['|']) = isPref p Y := by
  induction p with
  | nil => exact absurd rfl hne
  | cons a as ih =>
    intro Y
    have ha : a ≠ '|' := by
      intro hh
      exact hp (hh ▸ List.mem_cons_self a as)
    cases Y with
    | nil =>
      have : (a == '|') = false := by simp [ha]
      simp [isPref, this]
    | cons y ys =>
      simp only [List.cons_append, isPref, List.append_eq]
      cases as with
      | nil => simp [isPref]
      | cons b bs =>
        have hbs : '|' ∉ (b :: bs) := fun hh => hp (List.mem_cons_of_mem a hh)
        rw [ih (by simp) hbs ys]

/-- A nonempty pipe-free pattern occurs in `X ++ ['|']` iff it occurs in
`X`. -/
theorem occB_snoc_pipe (p : List Char) (hne : p ≠ []) (hp : '|' ∉ p) :
    ∀ X, occB p (X ++ ['|']) = occB p X := by
  intro X
  induction X with
  | nil =>
    obtain ⟨a, as, rfl⟩ := List.exists_cons_of_ne_nil hne
    have ha : (a == '|') = false := by
      simp only [beq_eq_false_iff_ne, ne_eq]
      intro hh
      exact hp (hh ▸ List.mem_cons_self a as)
    simp [occB, isPref, ha]
  | cons x X' ih =>
    simp only [List.cons_append, occB, List.append_eq]
    rw [← List.cons_append, isPref_snoc_pipe p hne hp (x :: X'), ih]

/-- A pattern not starting with `|` occurs in `'|' :: X` iff it occurs in
`X`. -/
theorem occB_cons_pipe (a : Char) (as : List Char) (ha : a ≠ '|') (X : List Char) :
    occB (a :: as) ('|' :: X) = occB (a :: as) X := by
  have : (a == '|') = false := by simp [ha]
  simp [occB, isPref, this]

/-- Prefix inversion: the target starts with the pattern's head. -/
theorem isPref_cons_inv {a : Char} {as X : List Char} (h : isPref (a :: as) X = true) :
    ∃ t, X = a :: t ∧ isPref as t = true := by
  cases X with
  | nil => simp [isPref] at h
  | cons x xs =>
    simp only [isPref, Bool.and_eq_true, beq_iff_eq] at h
    exact ⟨xs, by rw [h.1], h.2⟩

/-- Transfer: if the rewritten body starts with `-`, `!` or `>` — a
character no replacement chunk starts with — then the input starts with
that same character and was copied. -/
theorem cb_cons_of_head (x : Char) (hx : x = '-' ∨ x = '!' ∨ x = '>') :
    ∀ l out, cb l = x :: out → ∃ rest, l = x :: rest ∧ out = cb rest := by
  intro l out h
  cases l with
  | nil => simp [cb] at h
  | cons c rest =>
    rw [cb] at h
    by_cases h1 : c = '<' ∧ rest.take 3 = ['!', '-', '-']
    · rw [if_pos h1] at h
      obtain ⟨rfl, -⟩ : x = '<' ∧ _ := ⟨(List.cons.injEq _ _ _ _ ▸ h).1.symm, trivial⟩
      rcases hx with hh | hh | hh <;> simp at hh
    · rw [if_neg h1] at h
      by_cases h2 : c = '-' ∧ rest.take 3 = ['-', '!', '>']
      · rw [if_pos h2] at h
        obtain ⟨rfl, -⟩ : x = '=' ∧ _ := ⟨(List.cons.injEq _ _ _ _ ▸ h).1.symm, trivial⟩
        rcases hx with hh | hh | hh <;> simp at hh
      · rw [if_neg h2] at h
        by_cases h3 : c = '-' ∧ rest.take 2 = ['-', '>']
        · rw [if_pos h3] at h
          obtain ⟨rfl, -⟩ : x = '=' ∧ _ := ⟨(List.cons.injEq _ _ _ _ ▸ h).1.symm, trivial⟩
          rcases hx with hh | hh | hh <;> simp at hh
        · rw [if_neg h3] at h
          obtain ⟨rfl, rfl⟩ : c = x ∧ cb rest = out := by
            have := List.cons.injEq c (cb rest) x out ▸ h
            exact ⟨this.1, this.2⟩
          exact ⟨rest, rfl, rfl⟩

/-- In a copy step (no forbidden sequence at the head of `c :: rest`),
`<!--` cannot begin at the copied character. -/
theorem no_pref_ltbang (c : Char) (rest : List Char)
    (h1 : ¬(c = '<' ∧ rest.take 3 = ['!', '-', '-'])) :
    isPref ['<', '!', '-', '-'] (c :: cb rest) = false := by
  by_contra hT
  rw [Bool.not_eq_false] at hT
  obtain ⟨t1, ht1, hp1⟩ := isPref_cons_inv hT
  obtain ⟨rfl, ht1'⟩ : c = '<' ∧ cb rest = t1 := by
    have := List.cons.injEq c (cb rest) '<' t1 ▸ ht1
    exact ⟨this.1, this.2⟩
  obtain ⟨t2, ht2, hp2⟩ := isPref_cons_inv hp1
  obtain ⟨rest2, rfl, rfl⟩ := cb_cons_of_head '!' (by simp) rest t2 (ht1' ▸ ht2)
  obtain ⟨t3, ht3, hp3⟩ := isPref_cons_inv hp2
  obtain ⟨rest3, rfl, rfl⟩ := cb_cons_of_head '-' (by simp) rest2 t3 ht3
  obtain ⟨t4, ht4, hp4⟩ := isPref_cons_inv hp3
  obtain ⟨rest4, rfl, rfl⟩ := cb_cons_of_head '-' (by simp) rest3 t4 ht4
  exact h1 ⟨rfl, by simp⟩

/-- In a copy step, `-->` cannot begin at the copied character. -/
theorem no_pref_ddgt (c : Char) (rest : List Char)
    (h3 : ¬(c = '-' ∧ rest.take 2 = ['-', '>'])) :
    isPref ['-', '-', '>'] (c :: cb rest) = false := by
  by_contra hT
  rw [Bool.not_eq_false] at hT
  obtain ⟨t1, ht1, hp1⟩ := isPref_cons_inv hT
  obtain ⟨rfl, ht1'⟩ : c = '-' ∧ cb rest = t1 := by
    have := List.cons.injEq c (cb rest) '-' t1 ▸ ht1
    exact ⟨this.1, this.2⟩
  obtain ⟨t2, ht2, hp2⟩ := isPref_cons_inv hp1
  obtain ⟨rest2, rfl, rfl⟩ := cb_cons_of_head '-' (by simp) rest t2 (ht1' ▸ ht2)
  obtain ⟨t3, ht3, hp3⟩ := isPref_cons_inv hp2
  obtain ⟨rest3, rfl, rfl⟩ := cb_cons_of_head '>' (by simp) rest2 t3 ht3
  exact h3 ⟨rfl, by simp⟩

/-- In a copy step, `--!>` cannot begin at the copied character. -/
theorem no_pref_ddbang (c : Char) (rest : List Char)
    (h2 : ¬(c = '-' ∧ rest.take 3 = ['-', '!', '>'])) :
    isPref ['-', '-', '!', '>'] (c :: cb rest) = false := by
  by_contra hT
  rw [Bool.not_eq_false] at hT
  obtain ⟨t1, ht1, hp1⟩ := isPref_cons_inv hT
  obtain ⟨rfl, ht1'⟩ : c = '-' ∧ cb rest = t1 := by
    have := List.cons.injEq c (cb rest) '-' t1 ▸ ht1
    exact ⟨this.1, this.2⟩
  obtain ⟨t2, ht2, hp2⟩ := isPref_cons_inv hp1
  obtain ⟨rest2, rfl, rfl⟩ := cb_cons_of_head '-' (by simp) rest t2 (ht1' ▸ ht2)
  obtain ⟨t3, ht3, hp3⟩ := isPref_cons_inv hp2
  obtain ⟨rest3, rfl, rfl⟩ := cb_cons_of_head '!' (by simp) rest2 t3 ht3
  obtain ⟨t4, ht4, hp4⟩ := isPref_cons_inv hp3
  obtain ⟨rest4, rfl, rfl⟩ := cb_cons_of_head '>' (by simp) rest3 t4 ht4
  exact h2 ⟨rfl, by simp⟩

/-- The rewritten comment body contains none of `<!--`, `-->`, `--!>`. -/
theorem cb_no_bad (n : Nat) : ∀ l : List Char, l.length ≤ n →
    occB ['<', '!', '-', '-'] (cb l) = false ∧ occB ['-', '-', '>'] (cb l) = false
      ∧ occB ['-', '-', '!', '>'] (cb l) = false := by
  induction n with
  | zero =>
    intro l hl
    have hnil : l = [] := by
      cases l with
      | nil => rfl
      | cons a b => simp at hl
    subst hnil
    simp [cb, occB, isPref]
  | succ m ih =>
    intro l hl
    cases l with
    | nil => simp [cb, occB, isPref]
    | cons c rest =>
      have hlr : rest.length ≤ m := by simp at hl; omega
      by_cases h1 : c = '<' ∧ rest.take 3 = ['!', '-', '-']
      · have hcb : cb (c :: rest) = '<' :: '!' :: '=' :: '=' :: cb (rest.drop 3) := by
          rw [cb, if_pos h1]
        obtain ⟨ha, hb, hc⟩ := ih (rest.drop 3) (by simp [List.length_drop]; omega)
        rw [hcb]
        exact ⟨by simp [occB, isPref, ha], by simp [occB, isPref, hb],
          by simp [occB, isPref, hc]⟩
      · by_cases h2 : c = '-' ∧ rest.take 3 = ['-', '!', '>']
        · have hcb : cb (c :: rest) = '=' :: '=' :: '!' :: '>' :: cb (rest.drop 3) := by
            rw [cb, if_neg h1, if_pos h2]
          obtain ⟨ha, hb, hc⟩ := ih (rest.drop 3) (by simp [List.length_drop]; omega)
          rw [hcb]
          exact ⟨by simp [occB, isPref, ha], by simp [occB, isPref, hb],
            by simp [occB, isPref, hc]⟩
        · by_cases h3 : c = '-' ∧ rest.take 2 = ['-', '>']
          · have hcb : cb (c :: rest) = '=' :: '=' :: '>' :: cb (rest.drop 2) := by
              rw [cb, if_neg h1, if_neg h2, if_pos h3]
            obtain ⟨ha, hb, hc⟩ := ih (rest.drop 2) (by simp [List.length_drop]; omega)
            rw [hcb]
            exact ⟨by simp [occB, isPref, ha], by simp [occB, isPref, hb],
              by simp [occB, isPref, hc]⟩
          · have hcb : cb (c :: rest) = c :: cb rest := by
              rw [cb, if_neg h1, if_neg h2, if_neg h3]
            obtain ⟨ha, hb, hc⟩ := ih rest hlr
            rw [hcb]
            refine ⟨?_, ?_, ?_⟩
            · simp only [occB]
              rw [no_pref_ltbang c rest h1, ha]
              rfl
            · simp only [occB]
              rw [no_pref_ddgt c rest h3, hb]
              rfl
            · simp only [occB]
              rw [no_pref_ddbang c rest h2, hc]
              rfl

/-- Adding the `|` guards cannot create an occurrence of a nonempty
pipe-free pattern. -/
theorem occB_affix_pipe (p : List Char) (hne : p ≠ []) (hp : '|' ∉ p)
    (X : List Char) (hX : occB p X = false) (bo bc : Bool) :
    occB p ((if bo then ['|'] else []) ++ X ++ (if bc then ['|'] else [])) = false := by
  obtain ⟨a, as, rfl⟩ := List.exists_cons_of_ne_nil hne
  have ha : a ≠ '|' := fun hh => hp (hh ▸ List.mem_cons_self a as)
  have hmid : occB (a :: as) (X ++ (if bc then ['|'] else [])) = false := by
    cases bc with
    | false => simpa using hX
    | true => simpa [occB_snoc_pipe (a :: as) hne hp X] using hX
  cases bo with
  | false => simpa using hmid
  | true =>
    simpa [occB_cons_pipe a as ha (X ++ (if bc then ['|'] else []))] using hmid

/-- C6: every emitted comment is `<!--`, an interior, `-->`; the interior
is the body rewritten by `cb` (`<!--` to `<!==`, `-->` to `==>`, `--!>`
to `==!>`) with a `|` inserted after the opener iff the body starts with
`>` or `->` and a `|` before the closer iff the body ends with `<!-`; and
the interior contains no occurrence of `<!--`, `-->` or `--!>`. -/
theorem comment_rewrite_interior_safe (B : Str) :
    ∃ interior : Str,
      renderComment B = "<!--".data ++ interior ++ "-->".data
        ∧ interior = (if commentPipeOpen B then ['|'] else []) ++ cb B
            ++ (if commentPipeClose B then ['|'] else [])
        ∧ occB "<!--".data interior = false
        ∧ occB "-->".data interior = false
        ∧ occB "--!>".data interior = false := by
  obtain ⟨ha, hb, hc⟩ := cb_no_bad B.length B le_rfl
  refine ⟨(if commentPipeOpen B then ['|'] else []) ++ cb B
      ++ (if commentPipeClose B then ['|'] else []), ?_, rfl, ?_, ?_, ?_⟩
  · unfold renderComment
    simp [List.append_assoc]
  · exact occB_affix_pipe ['<', '!', '-', '-'] (by simp) (by simp) (cb B) ha _ _
  · exact occB_affix_pipe ['-', '-', '>'] (by simp) (by simp) (cb B) hb _ _
  · exact occB_affix_pipe ['-', '-', '!', '>'] (by simp) (by simp) (cb B) hc _ _

/-! ## C8: sufficient depth budgets are interchangeable -/

/-- Every node has depth at least 1. -/
theorem nodeDepth_pos (T : Node) : 1 ≤ nodeDepth T := by
  cases T <;> simp [nodeDepth]

/-- Any member of a `Multi` list fits in the list's depth. -/
theorem nodeDepthList_mem {T : Node} : ∀ {ns : List Node}, T ∈ ns → nodeDepth T ≤ nodeDepthList ns := by
  intro ns h
  induction ns with
  | nil => cases h
  | cons nn rest ih =>
    rw [nodeDepthList]
    rcases List.mem_cons.mp h with rfl | hm
    · exact le_max_left _ _
    · exact le_trans (ih hm) (le_max_right _ _)

/-- Any member of a `Keyed` list fits in the list's depth. -/
theorem nodeDepthKeyed_mem {p : Nat × Node} : ∀ {ps : List (Nat × Node)}, p ∈ ps →
    nodeDepth p.2 ≤ nodeDepthKeyed ps := by
  intro ps h
  induction ps with
  | nil => cases h
  | cons pp rest ih =>
    rw [nodeDepthKeyed]
    rcases List.mem_cons.mp h with rfl | hm
    · exact le_max_left _ _
    · exact le_trans (ih hm) (le_max_right _ _)

/-- Member-wise equal renderings give equal `Multi` renderings. -/
theorem renderFragmentList_congr (d d' : Nat) :
    ∀ ns : List Node, (∀ T ∈ ns, renderFragment T d = renderFragment T d') →
      renderFragmentList ns d = renderFragmentList ns d' := by
  intro ns hmem
  induction ns with
  | nil => simp only [renderFragmentList]
  | cons nn rest ih =>
    simp only [renderFragmentList]
    rw [hmem nn (List.mem_cons_self nn rest),
      ih (fun T hT => hmem T (List.mem_cons_of_mem _ hT))]

/-- Member-wise equal renderings give equal `Keyed` renderings. -/
theorem renderFragmentKeyed_congr (d d' : Nat) :
    ∀ ps : List (Nat × Node), (∀ p ∈ ps, renderFragment (Prod.snd p) d = renderFragment p.2 d') →
      renderFragmentKeyed ps d = renderFragmentKeyed ps d' := by
  intro ps hmem
  induction ps with
  | nil => simp only [renderFragmentKeyed]
  | cons pp rest ih =>
    simp only [renderFragmentKeyed]
    rw [hmem pp (List.mem_cons_self pp rest),
      ih (fun p hp => hmem p (List.mem_cons_of_mem _ hp))]

/-- Member-wise equal raw-text renderings give equal `Multi` renderings. -/
theorem renderRawList_congr (en : Str) (d d' : Nat) :
    ∀ ns : List Node, (∀ T ∈ ns, renderRawText T en d = renderRawText T en d') →
      renderRawList ns en d = renderRawList ns en d' := by
  intro ns hmem
  induction ns with
  | nil => simp only [renderRawList]
  | cons nn rest ih =>
    simp only [renderRawList]
    rw [hmem nn (List.mem_cons_self nn rest),
      ih (fun T hT => hmem T (List.mem_cons_of_mem _ hT))]

/-- Member-wise equal raw-text renderings give equal `Keyed` renderings. -/
theorem renderRawKeyed_congr (en : Str) (d d' : Nat) :
    ∀ ps : List (Nat × Node), (∀ p ∈ ps, renderRawText (Prod.snd p) en d = renderRawText p.2 en d') →
      renderRawKeyed ps en d = renderRawKeyed ps en d' := by
  intro ps hmem
  induction ps with
  | nil => simp only [renderRawKeyed]
  | cons pp rest ih =>
    simp only [renderRawKeyed]
    rw [hmem pp (List.mem_cons_self pp rest),
      ih (fun p hp => hmem p (List.mem_cons_of_mem _ hp))]

/-- Member-wise equal escapable renderings give equal `Multi` renderings. -/
theorem renderEscList_congr (d d' : Nat) :
    ∀ ns : List Node, (∀ T ∈ ns, renderEscapableRawText T d = renderEscapableRawText T d') →
      renderEscList ns d = renderEscList ns d' := by
  intro ns hmem
  induction ns with
  | nil => simp only [renderEscList]
  | cons nn rest ih =>
    simp only [renderEscList]
    rw [hmem nn (List.mem_cons_self nn rest),
      ih (fun T hT => hmem T (List.mem_cons_of_mem _ hT))]

/-- Member-wise equal escapable renderings give equal `Keyed` renderings. -/
theorem renderEscKeyed_congr (d d' : Nat) :
    ∀ ps : List (Nat × Node), (∀ p ∈ ps, renderEscapableRawText (Prod.snd p) d = renderEscapableRawText p.2 d') →
      renderEscKeyed ps d = renderEscKeyed ps d' := by
  intro ps hmem
  induction ps with
  | nil => simp only [renderEscKeyed]
  | cons pp rest ih =>
    simp only [renderEscKeyed]
    rw [hmem pp (List.mem_cons_self pp rest),
      ih (fun p hp => hmem p (List.mem_cons_of_mem _ hp))]

/-- The element-content dispatch respects per-content equal renderings. -/
theorem renderElementContent_congr (kind : ElementKind) (name : Str) (content : Node)
    (d d' : Nat)
    (hf : renderFragment content d = renderFragment content d')
    (hr : ∀ en, renderRawText content en d = renderRawText content en d')
    (he : renderEscapableRawText content d = renderEscapableRawText content d') :
    renderElementContent kind name content d = renderElementContent kind name content d' := by
  cases kind <;> simp only [renderElementContent] <;> first
    | rfl
    | exact hf
    | exact hr name
    | exact he

/-- The three renderers are invariant under any sufficient depth budget
(strong induction on the tree size). -/
theorem render_depth_invariant (n : Nat) : ∀ T : Node, sizeOf T ≤ n →
    (∀ d d', nodeDepth T ≤ d → nodeDepth T ≤ d' → renderFragment T d = renderFragment T d')
      ∧ (∀ en d d', nodeDepth T ≤ d → nodeDepth T ≤ d' →
          renderRawText T en d = renderRawText T en d')
      ∧ (∀ d d', nodeDepth T ≤ d → nodeDepth T ≤ d' →
          renderEscapableRawText T d = renderEscapableRawText T d') := by
  induction n with
  | zero =>
    intro T hT
    exfalso
    cases T <;> simp at hT
  | succ m ih =>
    intro T hT
    cases T with
    | comment B =>
      refine ⟨?_, ?_, ?_⟩
      · intro d d' hd hd'
        have h1 : ¬(d = 0) := by have := nodeDepth_pos (Node.comment B); omega
        have h2 : ¬(d' = 0) := by have := nodeDepth_pos (Node.comment B); omega
        conv_lhs => rw [renderFragment]
        conv_rhs => rw [renderFragment]
        rw [if_neg h1, if_neg h2]
      · intro en d d' hd hd'
        have h1 : ¬(d = 0) := by have := nodeDepth_pos (Node.comment B); omega
        have h2 : ¬(d' = 0) := by have := nodeDepth_pos (Node.comment B); omega
        conv_lhs => rw [renderRawText]
        conv_rhs => rw [renderRawText]
        rw [if_neg h1, if_neg h2]
      · intro d d' hd hd'
        have h1 : ¬(d = 0) := by have := nodeDepth_pos (Node.comment B); omega
        have h2 : ¬(d' = 0) := by have := nodeDepth_pos (Node.comment B); omega
        conv_lhs => rw [renderEscapableRawText]
        conv_rhs => rw [renderEscapableRawText]
        rw [if_neg h1, if_neg h2]
    | text t =>
      refine ⟨?_, ?_, ?_⟩
      · intro d d' hd hd'
        have h1 : ¬(d = 0) := by have := nodeDepth_pos (Node.text t); omega
        have h2 : ¬(d' = 0) := by have := nodeDepth_pos (Node.text t); omega
        conv_lhs => rw [renderFragment]
        conv_rhs => rw [renderFragment]
        rw [if_neg h1, if_neg h2]
      · intro en d d' hd hd'
        have h1 : ¬(d = 0) := by have := nodeDepth_pos (Node.text t); omega
        have h2 : ¬(d' = 0) := by have := nodeDepth_pos (Node.text t); omega
        conv_lhs => rw [renderRawText]
        conv_rhs => rw [renderRawText]
        rw [if_neg h1, if_neg h2]
      · intro d d' hd hd'
        have h1 : ¬(d = 0) := by have := nodeDepth_pos (Node.text t); omega
        have h2 : ¬(d' = 0) := by have := nodeDepth_pos (Node.text t); omega
        conv_lhs => rw [renderEscapableRawText]
        conv_rhs => rw [renderEscapableRawText]
        rw [if_neg h1, if_neg h2]
    | remnantSite =>
      refine ⟨?_, ?_, ?_⟩
      · intro d d' hd hd'
        have h1 : ¬(d = 0) := by have := nodeDepth_pos Node.remnantSite; omega
        have h2 : ¬(d' = 0) := by have := nodeDepth_pos Node.remnantSite; omega
        conv_lhs => rw [renderFragment]
        conv_rhs => rw [renderFragment]
        rw [if_neg h1, if_neg h2]
      · intro en d d' hd hd'
        have h1 : ¬(d = 0) := by have := nodeDepth_pos Node.remnantSite; omega
        have h2 : ¬(d' = 0) := by have := nodeDepth_pos Node.remnantSite; omega
        conv_lhs => rw [renderRawText]
        conv_rhs => rw [renderRawText]
        rw [if_neg h1, if_neg h2]
      · intro d d' hd hd'
        have h1 : ¬(d = 0) := by have := nodeDepth_pos Node.remnantSite; omega
        have h2 : ¬(d' = 0) := by have := nodeDepth_pos Node.remnantSite; omega
        conv_lhs => rw [renderEscapableRawText]
        conv_rhs => rw [renderEscapableRawText]
        rw [if_neg h1, if_neg h2]
    | memoized c =>
      have hsz : sizeOf c ≤ m := by simp at hT; omega
      have hdc := nodeDepth_pos c
      refine ⟨?_, ?_, ?_⟩
      · intro d d' hd hd'
        simp only [nodeDepth] at hd hd'
        have h1 : ¬(d = 0) := by omega
        have h2 : ¬(d' = 0) := by omega
        conv_lhs => rw [renderFragment]
        conv_rhs => rw [renderFragment]
        rw [if_neg h1, if_neg h2]
        show renderFragment c (d - 1) = renderFragment c (d' - 1)
        exact (ih c hsz).1 (d - 1) (d' - 1) (by omega) (by omega)
      · intro en d d' hd hd'
        simp only [nodeDepth] at hd hd'
        have h1 : ¬(d = 0) := by omega
        have h2 : ¬(d' = 0) := by omega
        conv_lhs => rw [renderRawText]
        conv_rhs => rw [renderRawText]
        rw [if_neg h1, if_neg h2]
        show renderRawText c en (d - 1) = renderRawText c en (d' - 1)
        exact (ih c hsz).2.1 en (d - 1) (d' - 1) (by omega) (by omega)
      · intro d d' hd hd'
        simp only [nodeDepth] at hd hd'
        have h1 : ¬(d = 0) := by omega
        have h2 : ¬(d' = 0) := by omega
        conv_lhs => rw [renderEscapableRawText]
        conv_rhs => rw [renderEscapableRawText]
        rw [if_neg h1, if_neg h2]
        show renderEscapableRawText c (d - 1) = renderEscapableRawText c (d' - 1)
        exact (ih c hsz).2.2 (d - 1) (d' - 1) (by omega) (by omega)
    | multi ns =>
      have hszl : sizeOf ns ≤ m := by simp at hT; omega
      have hmemsz : ∀ T ∈ ns, sizeOf T ≤ m := by
        intro T hTm
        have := List.sizeOf_lt_of_mem hTm
        omega
      refine ⟨?_, ?_, ?_⟩
      · intro d d' hd hd'
        simp only [nodeDepth] at hd hd'
        have h1 : ¬(d = 0) := by omega
        have h2 : ¬(d' = 0) := by omega
        conv_lhs => rw [renderFragment]
        conv_rhs => rw [renderFragment]
        rw [if_neg h1, if_neg h2]
        show renderFragmentList ns (d - 1) = renderFragmentList ns (d' - 1)
        refine renderFragmentList_congr (d - 1) (d' - 1) ns (fun T hTm => ?_)
        have hdm := nodeDepthList_mem hTm
        exact (ih T (hmemsz T hTm)).1 (d - 1) (d' - 1) (by omega) (by omega)
      · intro en d d' hd hd'
        simp only [nodeDepth] at hd hd'
        have h1 : ¬(d = 0) := by omega
        have h2 : ¬(d' = 0) := by omega
        conv_lhs => rw [renderRawText]
        conv_rhs => rw [renderRawText]
        rw [if_neg h1, if_neg h2]
        show renderRawList ns en (d - 1) = renderRawList ns en (d' - 1)
        refine renderRawList_congr en (d - 1) (d' - 1) ns (fun T hTm => ?_)
        have hdm := nodeDepthList_mem hTm
        exact (ih T (hmemsz T hTm)).2.1 en (d - 1) (d' - 1) (by omega) (by omega)
      · intro d d' hd hd'
        simp only [nodeDepth] at hd hd'
        have h1 : ¬(d = 0) := by omega
        have h2 : ¬(d' = 0) := by omega
        conv_lhs => rw [renderEscapableRawText]
        conv_rhs => rw [renderEscapableRawText]
        rw [if_neg h1, if_neg h2]
        show renderEscList ns (d - 1) = renderEscList ns (d' - 1)
        refine renderEscList_congr (d - 1) (d' - 1) ns (fun T hTm => ?_)
        have hdm := nodeDepthList_mem hTm
        exact (ih T (hmemsz T hTm)).2.2 (d - 1) (d' - 1) (by omega) (by omega)
    | keyed ps =>
      have hszl : sizeOf ps ≤ m := by simp at hT; omega
      have hmemsz : ∀ p ∈ ps, sizeOf (Prod.snd p) ≤ m := by
        intro p hpm
        have h1 := List.sizeOf_lt_of_mem hpm
        obtain ⟨k, nd⟩ := p
        simp at h1 ⊢
        omega
      refine ⟨?_, ?_, ?_⟩
      · intro d d' hd hd'
        simp only [nodeDepth] at hd hd'
        have h1 : ¬(d = 0) := by omega
        have h2 : ¬(d' = 0) := by omega
        conv_lhs => rw [renderFragment]
        conv_rhs => rw [renderFragment]
        rw [if_neg h1, if_neg h2]
        show renderFragmentKeyed ps (d - 1) = renderFragmentKeyed ps (d' - 1)
        refine renderFragmentKeyed_congr (d - 1) (d' - 1) ps (fun p hpm => ?_)
        have hdm := nodeDepthKeyed_mem hpm
        exact (ih p.2 (hmemsz p hpm)).1 (d - 1) (d' - 1) (by omega) (by omega)
      · intro en d d' hd hd'
        simp only [nodeDepth] at hd hd'
        have h1 : ¬(d = 0) := by omega
        have h2 : ¬(d' = 0) := by omega
        conv_lhs => rw [renderRawText]
        conv_rhs => rw [renderRawText]
        rw [if_neg h1, if_neg h2]
        show renderRawKeyed ps en (d - 1) = renderRawKeyed ps en (d' - 1)
        refine renderRawKeyed_congr en (d - 1) (d' - 1) ps (fun p hpm => ?_)
        have hdm := nodeDepthKeyed_mem hpm
        exact (ih p.2 (hmemsz p hpm)).2.1 en (d - 1) (d' - 1) (by omega) (by omega)
      · intro d d' hd hd'
        simp only [nodeDepth] at hd hd'
        have h1 : ¬(d = 0) := by omega
        have h2 : ¬(d' = 0) := by omega
        conv_lhs => rw [renderEscapableRawText]
        conv_rhs => rw [renderEscapableRawText]
        rw [if_neg h1, if_neg h2]
        show renderEscKeyed ps (d - 1) = renderEscKeyed ps (d' - 1)
        refine renderEscKeyed_congr (d - 1) (d' - 1) ps (fun p hpm => ?_)
        have hdm := nodeDepthKeyed_mem hpm
        exact (ih p.2 (hmemsz p hpm)).2.2 (d - 1) (d' - 1) (by omega) (by omega)
    | htmlElement name attrs content =>
      have hsz : sizeOf content ≤ m := by simp at hT; omega
      have hcd := ih content hsz
      refine ⟨?_, ?_, ?_⟩
      · intro d d' hd hd'
        simp only [nodeDepth] at hd hd'
        have h1 : ¬(d = 0) := by omega
        have h2 : ¬(d' = 0) := by omega
        have hrec : ∀ kind, renderElementContent kind name content (d - 1)
            = renderElementContent kind name content (d' - 1) := fun kind =>
          renderElementContent_congr kind name content (d - 1) (d' - 1)
            (hcd.1 _ _ (by omega) (by omega))
            (fun en => hcd.2.1 en _ _ (by omega) (by omega))
            (hcd.2.2 _ _ (by omega) (by omega))
        simp only [renderFragment, h1, h2, if_false, hrec]
      · intro en d d' hd hd'
        simp only [nodeDepth] at hd hd'
        have h1 : ¬(d = 0) := by omega
        have h2 : ¬(d' = 0) := by omega
        conv_lhs => rw [renderRawText]
        conv_rhs => rw [renderRawText]
        rw [if_neg h1, if_neg h2]
      · intro d d' hd hd'
        simp only [nodeDepth] at hd hd'
        have h1 : ¬(d = 0) := by omega
        have h2 : ¬(d' = 0) := by omega
        conv_lhs => rw [renderEscapableRawText]
        conv_rhs => rw [renderEscapableRawText]
        rw [if_neg h1, if_neg h2]
    | svgElement name attrs content =>
      have hsz : sizeOf content ≤ m := by simp at hT; omega
      have hcd := ih content hsz
      refine ⟨?_, ?_, ?_⟩
      · intro d d' hd hd'
        simp only [nodeDepth] at hd hd'
        have h1 : ¬(d = 0) := by omega
        have h2 : ¬(d' = 0) := by omega
        have hrec : ∀ kind, renderElementContent kind name content (d - 1)
            = renderElementContent kind name content (d' - 1) := fun kind =>
          renderElementContent_congr kind name content (d - 1) (d' - 1)
            (hcd.1 _ _ (by omega) (by omega))
            (fun en => hcd.2.1 en _ _ (by omega) (by omega))
            (hcd.2.2 _ _ (by omega) (by omega))
        simp only [renderFragment, h1, h2, if_false, hrec]
      · intro en d d' hd hd'
        simp only [nodeDepth] at hd hd'
        have h1 : ¬(d = 0) := by omega
        have h2 : ¬(d' = 0) := by omega
        conv_lhs => rw [renderRawText]
        conv_rhs => rw [renderRawText]
        rw [if_neg h1, if_neg h2]
      · intro d d' hd hd'
        simp only [nodeDepth] at hd hd'
        have h1 : ¬(d = 0) := by omega
        have h2 : ¬(d' = 0) := by omega
        conv_lhs => rw [renderEscapableRawText]
        conv_rhs => rw [renderEscapableRawText]
        rw [if_neg h1, if_neg h2]

/-- C8: once the depth budget covers the tree's node depth, enlarging it
never changes success into failure or vice versa — the rendering result is
the same at every sufficient budget. -/
theorem depth_budget_sufficient_invariant (T : Node) (d d' : Nat)
    (hd : nodeDepth T ≤ d) (hdd : d < d') :
    (renderFragment T d).isOk = true ↔ (renderFragment T d').isOk = true := by
  rw [(render_depth_invariant (sizeOf T) T le_rfl).1 d d' hd (by omega)]

/-- C8 witness: the two-deep `div` tree at budgets 3 and 4. -/
theorem depth_budget_sufficient_invariant_witness :
    (renderFragment (.htmlElement "div".data [] (.htmlElement "div".data [] (.multi []))) 3).isOk
        = true
      ↔ (renderFragment (.htmlElement "div".data [] (.htmlElement "div".data [] (.multi []))) 4).isOk
        = true :=
  depth_budget_sufficient_invariant
    (.htmlElement "div".data [] (.htmlElement "div".data [] (.multi []))) 3 4
    (by simp [nodeDepth, nodeDepthList]) (by omega)

/-! ## C5 (amended): raw-text scanning on ASCII bodies

On all-ASCII strings byte positions coincide with character positions, so
the byte-level bookkeeping of `check_for_error` can be related to the
character-level end-tag pattern of the claim. -/

/-- Is every character ASCII? -/
def allAscii (s : Str) : Bool := s.all (fun c => c.toNat < 128)

/-- `Char.toNat` determines the character. -/
theorem char_toNat_inj {a b : Char} (h : a.toNat = b.toNat) : a = b :=
  Char.ext (UInt32.ext h)

/-- ASCII characters encode in one byte. -/
theorem utf8Width_ascii {c : Char} (h : c.toNat < 128) : utf8Width c = 1 := by
  simp [utf8Width, h]

/-- The one-byte encoding of an ASCII character. -/
theorem utf8EncodeChar_ascii {c : Char} (h : c.toNat < 128) : utf8EncodeChar c = [c.toNat] := by
  simp [utf8EncodeChar, h]

/-- ASCII strings encode to their code points. -/
theorem utf8Encode_ascii : ∀ {s : Str}, allAscii s = true → utf8Encode s = s.map Char.toNat := by
  intro s h
  induction s with
  | nil => rfl
  | cons c r ih =>
    simp only [allAscii, List.all_cons, Bool.and_eq_true, decide_eq_true_eq] at h
    simp only [utf8Encode, List.map_cons, List.flatten_cons, utf8EncodeChar_ascii h.1]
    have := ih (by simp [allAscii, h.2])
    simp only [utf8Encode] at this
    simp [this]

/-- Byte length equals character length on ASCII strings. -/
theorem utf8Len_ascii {s : Str} (h : allAscii s = true) : utf8Len s = s.length := by
  simp [utf8Len, utf8Encode_ascii h]

/-- Byte access is character access on ASCII strings. -/
theorem byteAt_ascii {s : Str} (h : allAscii s = true) (i : Nat) :
    byteAt s i = (s[i]?).map Char.toNat := by
  simp [byteAt, utf8Encode_ascii h]

/-- Byte drop is character drop on ASCII strings. -/
theorem dropBytes_ascii : ∀ (s : Str), allAscii s = true → ∀ i, i ≤ s.length →
    dropBytes s i = some (s.drop i) := by
  intro s
  induction s with
  | nil =>
    intro _ i hi
    have : i = 0 := by simpa using hi
    subst this
    rfl
  | cons c r ih =>
    intro h i hi
    simp only [allAscii, List.all_cons, Bool.and_eq_true, decide_eq_true_eq] at h
    cases i with
    | zero => rfl
    | succ j =>
      rw [dropBytes, utf8Width_ascii h.1, if_neg (by omega)]
      have hj : j + 1 - 1 = j := by omega
      rw [hj, List.drop_succ_cons]
      exact ih (by simp [allAscii, h.2]) j (by simp at hi; omega)

/-- Byte take is character take on ASCII strings. -/
theorem takeBytes_ascii : ∀ (s : Str), allAscii s = true → ∀ i, i ≤ s.length →
    takeBytes s i = some (s.take i) := by
  intro s
  induction s with
  | nil =>
    intro _ i hi
    have : i = 0 := by simpa using hi
    subst this
    rfl
  | cons c r ih =>
    intro h i hi
    simp only [allAscii, List.all_cons, Bool.and_eq_true, decide_eq_true_eq] at h
    cases i with
    | zero => rfl
    | succ j =>
      rw [takeBytes, utf8Width_ascii h.1, if_neg (by omega)]
      have hj : j + 1 - 1 = j := by omega
      rw [hj, ih (by simp [allAscii, h.2]) j (by simp at hi; omega)]
      simp

/-- Byte slicing is character slicing on ASCII strings. -/
theorem byteSlice_ascii {s : Str} (h : allAscii s = true) (a b : Nat)
    (hab : a ≤ b) (hb : b ≤ s.length) :
    byteSlice s a b = some ((s.drop a).take (b - a)) := by
  rw [byteSlice, dropBytes_ascii s h a (by omega)]
  rw [Option.some_bind]
  refine takeBytes_ascii (s.drop a) ?_ (b - a) (by rw [List.length_drop]; omega)
  simp only [allAscii, List.all_eq_true] at h ⊢
  exact fun c hc => h c (List.mem_of_mem_drop hc)

/-- The numeric byte test of `check_for_error` recognizes exactly the
terminator characters of the claim. -/
theorem isTerminatorChar_toNat (c : Char) :
    (c.toNat = 9 ∨ c.toNat = 10 ∨ c.toNat = 12 ∨ c.toNat = 13 ∨ c.toNat = 32 ∨ c.toNat = 62
      ∨ c.toNat = 47) ↔ isTerminatorChar c = true := by
  constructor
  · intro h
    rcases h with h | h | h | h | h | h | h
    · rw [char_toNat_inj (a := c) (b := '\t') (by rw [h]; rfl)]; decide
    · rw [char_toNat_inj (a := c) (b := '\n') (by rw [h]; rfl)]; decide
    · rw [char_toNat_inj (a := c) (b := '\x0C') (by rw [h]; rfl)]; decide
    · rw [char_toNat_inj (a := c) (b := '\r') (by rw [h]; rfl)]; decide
    · rw [char_toNat_inj (a := c) (b := ' ') (by rw [h]; rfl)]; decide
    · rw [char_toNat_inj (a := c) (b := '>') (by rw [h]; rfl)]; decide
    · rw [char_toNat_inj (a := c) (b := '/') (by rw [h]; rfl)]; decide
  · intro h
    unfold isTerminatorChar at h
    rw [decide_eq_true_eq] at h
    rcases h with h | h | h | h | h | h | h <;> subst h <;> simp

/-- On ASCII input, `check_for_error` at the end of a `</` token fails
(with the span from the token start through the terminator) exactly when
the claim-side end-tag pattern matches there, and never panics. -/
theorem checkForError_ascii (ename text r2 : Str) (p : Nat)
    (hea : allAscii ename = true) (hta : allAscii text = true)
    (hdrop : text.drop p = '<' :: '/' :: r2) (hple : p ≤ text.length) :
    checkForError ename text (p + 2)
      = if startsCloseTag ename ('<' :: '/' :: r2) = true then
          CheckRes.fail p (p + 2 + ename.length + 1)
        else .pass := by
  have hlen : text.length = p + 2 + r2.length := by
    have hld := List.length_drop p text
    rw [hdrop] at hld
    simp only [List.length_cons] at hld
    omega
  have hE := utf8Len_ascii hea
  have hT := utf8Len_ascii hta
  have hdrop2 : text.drop (p + 2) = r2 := by
    have h2 : text.drop (p + 2) = (text.drop p).drop 2 := by
      rw [List.drop_drop]
    rw [h2, hdrop]
    rfl
  rw [checkForError]
  simp only [hE, hT]
  by_cases hg : p + 2 + ename.length + 1 > text.length
  · rw [if_pos hg]
    have hr2 : r2.length ≤ ename.length := by omega
    have hstarts : startsCloseTag ename ('<' :: '/' :: r2) = false := by
      by_cases hr2e : r2.length = ename.length
      · have hnone : r2[ename.length]? = none := by
          rw [List.getElem?_eq_none]
          omega
        simp [startsCloseTag, hnone]
      · have hlen2 : ¬((r2.take ename.length).length = ename.length) := by
          rw [List.length_take]
          omega
        have heqf : eqIgnoreAsciiCase (r2.take ename.length) ename = false := by
          unfold eqIgnoreAsciiCase
          rw [decide_eq_false hlen2, Bool.false_and]
        simp [startsCloseTag, heqf]
    rw [hstarts]
    simp
  · rw [if_neg hg]
    have hEr : ename.length + 1 ≤ r2.length := by omega
    have hslice : byteSlice text (p + 2) (p + 2 + ename.length)
        = some (r2.take ename.length) := by
      rw [byteSlice_ascii hta (p + 2) (p + 2 + ename.length) (by omega) (by omega)]
      rw [hdrop2]
      have harith : p + 2 + ename.length - (p + 2) = ename.length := by omega
      rw [harith]
    simp only [hslice]
    have hElt : ename.length < r2.length := by omega
    have hb : byteAt text (p + 2 + ename.length) = some (r2[ename.length].toNat) := by
      rw [byteAt_ascii hta]
      have hg1 : text[p + 2 + ename.length]? = (text.drop (p + 2))[ename.length]? := by
        rw [List.getElem?_drop]
      rw [hg1, hdrop2, List.getElem?_eq_getElem hElt]
      rfl
    by_cases heq : eqIgnoreAsciiCase (r2.take ename.length) ename = true
    · rw [if_pos heq]
      simp only [hb]
      by_cases hterm : isTerminatorChar r2[ename.length] = true
      · rw [if_pos ((isTerminatorChar_toNat _).mpr hterm)]
        have hstarts : startsCloseTag ename ('<' :: '/' :: r2) = true := by
          simp only [startsCloseTag, List.getElem?_eq_getElem hElt, hterm, heq]
          try simp
        rw [if_pos hstarts]
        have harith2 : p + 2 - 2 = p := by omega
        rw [harith2]
      · rw [if_neg (fun hcon => hterm ((isTerminatorChar_toNat _).mp hcon))]
        have hstarts : startsCloseTag ename ('<' :: '/' :: r2) = false := by
          simp only [startsCloseTag, List.getElem?_eq_getElem hElt]
          simp [hterm]
        rw [hstarts]
        simp
    · rw [if_neg heq]
      have heqf : eqIgnoreAsciiCase (r2.take ename.length) ename = false := by
        simpa using heq
      have hstarts : startsCloseTag ename ('<' :: '/' :: r2) = false := by
        simp [startsCloseTag, heqf]
      rw [hstarts]
      simp

/-- On ASCII input the raw-text scan either emits the remaining suffix
verbatim (no end-tag occurrence) or stops with `ElementClosedInRawText`
carrying a span that matches the end-tag pattern. -/
theorem rawScan_ascii (N : Nat) : ∀ (ename text rest : Str) (p : Nat),
    rest.length ≤ N → allAscii ename = true → allAscii text = true →
    text.drop p = rest → p ≤ text.length →
    (containsCloseTag ename rest = false ∧ rawScan ename text rest p = .ok rest)
      ∨ (containsCloseTag ename rest = true
          ∧ ∃ o s, rawScan ename text rest p = .err o (.elementClosedInRawText s)
              ∧ startsCloseTag ename s = true) := by
  induction N with
  | zero =>
    intro ename text rest p hN _ _ _ _
    have hnil : rest = [] := by
      cases rest with
      | nil => rfl
      | cons a b => simp at hN
    subst hnil
    left
    exact ⟨rfl, by rw [rawScan]⟩
  | succ M ih =>
    intro ename text rest p hN hea hta hdrop hple
    have hlen : text.length = p + rest.length := by
      have hld := List.length_drop p text
      rw [hdrop] at hld
      omega
    cases rest with
    | nil =>
      left
      exact ⟨rfl, by rw [rawScan]⟩
    | cons c r =>
      by_cases hlt : c = '<' ∧ r.head? = some '/'
      · obtain ⟨rfl, hr⟩ := hlt
        obtain ⟨r2, rfl⟩ : ∃ r2, r = '/' :: r2 := by
          cases r with
          | nil => simp at hr
          | cons x xs =>
            simp only [List.head?_cons, Option.some.injEq] at hr
            exact ⟨xs, by rw [hr]⟩
        have hlen2 : text.length = p + 2 + r2.length := by
          simp only [List.length_cons] at hlen
          omega
        have hchk := checkForError_ascii ename text r2 p hea hta hdrop hple
        have hdrop2 : text.drop (p + 2) = r2 := by
          have h2 : text.drop (p + 2) = (text.drop p).drop 2 := by rw [List.drop_drop]
          rw [h2, hdrop]
          rfl
        by_cases hst : startsCloseTag ename ('<' :: '/' :: r2) = true
        · -- a close tag starts right here: the scan fails with the span
          have hpat : eqIgnoreAsciiCase (r2.take ename.length) ename = true
              ∧ ∃ hE : ename.length < r2.length, isTerminatorChar r2[ename.length] = true := by
            simp only [startsCloseTag] at hst
            cases hr2E : r2[ename.length]? with
            | none => simp [hr2E] at hst
            | some c0 =>
              rw [hr2E] at hst
              simp only [Bool.and_eq_true, decide_eq_true_eq] at hst
              obtain ⟨hElt, hc0⟩ := List.getElem?_eq_some_iff.mp hr2E
              exact ⟨hst.1.2, hElt, by rw [hc0]; exact hst.2⟩
          obtain ⟨hpat1, hElt, hpat2⟩ := hpat
          have hspan : byteSlice text p (p + 2 + ename.length + 1)
              = some ('<' :: '/' :: r2.take (ename.length + 1)) := by
            rw [byteSlice_ascii hta p _ (by omega) (by omega)]
            rw [hdrop]
            have harith : p + 2 + ename.length + 1 - p = (ename.length + 1) + 2 := by omega
            rw [harith]
            simp [List.take_cons]
          have hscan : rawScan ename text ('<' :: '/' :: r2) p
              = .err [] (.elementClosedInRawText ('<' :: '/' :: r2.take (ename.length + 1))) := by
            rw [rawScan]
            simp [hchk, hst, hspan]
          right
          refine ⟨by rw [containsCloseTag]; simp [hst], [], _, hscan, ?_⟩
          -- the span itself matches the end-tag pattern
          have htt : (r2.take (ename.length + 1)).take ename.length = r2.take ename.length := by
            rw [List.take_take]
            congr 1
            omega
          have hget : (r2.take (ename.length + 1))[ename.length]? = some r2[ename.length] := by
            rw [List.getElem?_take_of_lt (by omega)]
            exact List.getElem?_eq_getElem hElt
          simp only [startsCloseTag, htt, hget, hpat1, hpat2]
          simp
        · -- no close tag here: `</` is emitted and the scan continues
          have hscan : rawScan ename text ('<' :: '/' :: r2) p
              = RRes.pre ['<', '/'] (rawScan ename text r2 (p + 2)) := by
            rw [rawScan]
            simp [hchk, hst]
          have hrec := ih ename text r2 (p + 2)
            (by simp only [List.length_cons] at hN; omega) hea hta hdrop2 (by omega)
          have hcontains : containsCloseTag ename ('<' :: '/' :: r2)
              = containsCloseTag ename r2 := by
            rw [containsCloseTag, containsCloseTag]
            have hst2 : startsCloseTag ename ('/' :: r2) = false := by
              cases r2 with
              | nil => rfl
              | cons y ys => simp [startsCloseTag]
            rw [Bool.not_eq_true] at hst
            simp [hst, hst2]
          rcases hrec with ⟨hc, hok⟩ | ⟨hc, o, s, herr, hsp⟩
          · left
            refine ⟨by rw [hcontains]; exact hc, ?_⟩
            rw [hscan, hok]
            rfl
          · right
            refine ⟨by rw [hcontains]; exact hc, '<' :: '/' :: o, s, ?_, hsp⟩
            rw [hscan, herr]
            rfl
      · -- not a `</` token: one character is consumed
        have hst : startsCloseTag ename (c :: r) = false := by
          cases r with
          | nil => rfl
          | cons y ys =>
            simp only [startsCloseTag]
            by_cases hc : c = '<'
            · subst hc
              have hy : ¬(y = '/') := by
                intro hh
                exact hlt ⟨rfl, by rw [hh]; rfl⟩
              simp [hy]
            · simp [hc]
        have hcontains : containsCloseTag ename (c :: r) = containsCloseTag ename r := by
          rw [containsCloseTag]
          simp [hst]
        have hca : c.toNat < 128 := by
          have hmem : c ∈ text := by
            have : c ∈ text.drop p := by rw [hdrop]; exact List.mem_cons_self c r
            exact List.mem_of_mem_drop this
          simp only [allAscii, List.all_eq_true, decide_eq_true_eq] at hta
          exact hta c hmem
        have hlen1 : text.length = p + 1 + r.length := by
          simp only [List.length_cons] at hlen
          omega
        have hdrop1 : text.drop (p + 1) = r := by
          have h2 : text.drop (p + 1) = (text.drop p).drop 1 := by rw [List.drop_drop]
          rw [h2, hdrop]
          rfl
        have hrec := ih ename text r (p + 1)
          (by simp only [List.length_cons] at hN; omega) hea hta hdrop1 (by omega)
        have hscan : rawScan ename text (c :: r) p
            = RRes.pre [c] (rawScan ename text r (p + utf8Width c)) := by
          rw [rawScan]
          by_cases hc : c = '<'
          · subst hc
            rw [if_neg hlt, if_pos rfl]
            rw [utf8Width_ascii (by decide)]
          · rw [if_neg hlt, if_neg hc]
        rw [utf8Width_ascii hca] at hscan
        rcases hrec with ⟨hc2, hok⟩ | ⟨hc2, o, s, herr, hsp⟩
        · left
          refine ⟨by rw [hcontains]; exact hc2, ?_⟩
          rw [hscan, hok]
          rfl
        · right
          refine ⟨by rw [hcontains]; exact hc2, c :: o, s, ?_, hsp⟩
          rw [hscan, herr]
          rfl

/-- C5 (amended): for an all-ASCII raw-text body B, rendering fails with
`ElementClosedInRawText` (carrying a span matching `</NAME[\t\n\f\r />]`)
iff B contains `</` followed case-insensitively by the element name and a
terminator; otherwise B is emitted verbatim.  (The unrestricted claim is
refuted by `raw_text_close_tag_panic_counterexample`.) -/
theorem raw_text_ascii_close_tag_iff (ename B : Str) (d : Nat)
    (hea : allAscii ename = true) (hba : allAscii B = true) (hd : 1 ≤ d) :
    ((∃ o s, renderRawText (.text B) ename d = .err o (.elementClosedInRawText s)
        ∧ startsCloseTag ename s = true) ↔ containsCloseTag ename B = true)
    ∧ (containsCloseTag ename B = false → renderRawText (.text B) ename d = .ok B) := by
  have hd0 : ¬(d = 0) := by omega
  have hrt : renderRawText (.text B) ename d = rawScan ename B B 0 := by
    rw [renderRawText, if_neg hd0]
  have hres := rawScan_ascii B.length ename B B 0 le_rfl hea hba (List.drop_zero B) (by omega)
  rcases hres with ⟨hc, hok⟩ | ⟨hc, o, s, herr, hsp⟩
  · constructor
    · constructor
      · rintro ⟨o, s, hes, -⟩
        rw [hrt, hok] at hes
        cases hes
      · intro hcon
        rw [hc] at hcon
        cases hcon
    · intro _
      rw [hrt, hok]
  · constructor
    · constructor
      · intro _
        exact hc
      · intro _
        exact ⟨o, s, by rw [hrt, herr], hsp⟩
    · intro hcon
      rw [hc] at hcon
      cases hcon

/-- C5 witness: the theorem applied to the `script` body `x</scripty`. -/
theorem raw_text_ascii_close_tag_iff_witness :
    renderRawText (.text "x</scripty".data) "script".data 1 = .ok "x</scripty".data :=
  (raw_text_ascii_close_tag_iff "script".data "x</scripty".data 1 (by decide) (by decide)
    (by omega)).2 (by decide)
